import Mathlib

/-!
A shallow embedding of the automaton engine of `src/r11.py`: the data
carried by `StateItem` (name, `is_start`, `is_accept`, `transitions`),
the `Automaton` class (`add_state`, `set_start`, `set_accept`,
`add_transition`, `simulate`), and the serialized record produced by
`AutomataWindow.save_automaton` and consumed by
`AutomataWindow.load_automaton` (the file I/O and all drawing code are
outside the engine and are not modelled).

Modelling conventions:

* A Python `dict` is an association list with unique keys, read through
  `dictGet` (first match), written through `dictSet` (replace the value
  under an existing key in place, otherwise append — Python insertion
  order), and mutated through `dictUpdate` (update the value under a
  key, a no-op when the key is absent, which is exactly the observable
  effect on the automaton of mutating a `StateItem` object that is not
  stored in `Automaton.states`).
* A Python `set` of strings is a duplicate-free list; `insertNew` is
  `set.add`, `setUnion` is `set.update`, and only membership in such a
  list is ever meaningful (Python set iteration order is arbitrary).
* The engine's methods receive `StateItem` objects; every call site in
  the program passes the object stored in `Automaton.states` under its
  own name, so the embedding keys the operations by state name.
* A raised exception (`KeyError` from `self.states[state_name]`,
  `IndexError` from `state.transitions[char][0]`) is modelled by `none`
  in an `Option` result; normal return of `b` is `some b`.
* Python truthiness of a string-or-`None` field (`if not
  self.start_state`, `if data["start"]`) is explicit: `none` and
  `some ""` are both falsy.
* Transition symbols are arbitrary strings, as in the engine (the GUI
  validates single characters before calling in); iterating over the
  input string yields one-character strings, hence the
  `String.singleton` lookups in `simulate`.
-/

universe u v

section Dict

variable {α : Type u} {β : Type v}

/-- First-match lookup in an association list: `d.get(k)` / `d[k]`. -/
def dictGet (d : List (String × α)) (k : String) : Option α :=
  match d with
  | [] => none
  | p :: rest => if p.1 = k then some p.2 else dictGet rest k

/-- `d[k] = v`: replace the value under the first occurrence of `k`,
otherwise append the new binding (Python dict insertion order). -/
def dictSet (d : List (String × α)) (k : String) (v : α) : List (String × α) :=
  match d with
  | [] => [(k, v)]
  | p :: rest => if p.1 = k then (k, v) :: rest else p :: dictSet rest k v

/-- Mutate the value stored under `k`, a no-op when `k` is absent. -/
def dictUpdate (d : List (String × α)) (k : String) (f : α → α) : List (String × α) :=
  match d with
  | [] => []
  | p :: rest => if p.1 = k then (k, f p.2) :: rest else p :: dictUpdate rest k f

/-- `set.add`: append an element unless it is already present. -/
def insertNew (l : List String) (x : String) : List String :=
  if x ∈ l then l else l ++ [x]

/-- `set.update`: add every element of `ts` to the set `acc`. -/
def setUnion (acc ts : List String) : List String :=
  ts.foldl insertNew acc

/-- The duplicate-free list of first occurrences of `ts`. -/
def dedupList (ts : List String) : List String :=
  setUnion [] ts

end Dict

/-- The automaton-relevant data of a `StateItem` (its name is the key it
is stored under in `Automaton.states`; geometry and callbacks are GUI
state).  `transitions` is the dict mapping a symbol to the list of
target state names. -/
structure StateData where
  is_start : Bool
  is_accept : Bool
  transitions : List (String × List String)
deriving DecidableEq, Repr

/-- A fresh `StateItem(name, x, y)`: both flags false, empty transition
table. -/
def StateData.fresh : StateData :=
  { is_start := false, is_accept := false, transitions := [] }

/-- The `Automaton` class: dict of states keyed by name, optional start
state name, set of accept state names, DFA/NFA mode flag. -/
structure Automaton where
  states : List (String × StateData)
  start_state : Option String
  accept_states : List String
  is_dfa : Bool
deriving DecidableEq, Repr

/-- `Automaton(is_dfa)`: empty states, no start, empty accept set. -/
def Automaton.empty (is_dfa : Bool) : Automaton :=
  { states := [], start_state := none, accept_states := [], is_dfa := is_dfa }

/-- `add_state(state)`: `self.states[state.name] = state`. -/
def Automaton.add_state (a : Automaton) (name : String) (st : StateData) : Automaton :=
  { a with states := dictSet a.states name st }

/-- `set_start(state)`: clear the previous start state's flag when
`self.start_state` is truthy (not `None` and not the empty string) and
differs from the new name, then record the new name and set its flag.
The flag writes go through `dictUpdate`, matching both the
`self.states.get(...)`/`if old_start` guard and the fact that mutating a
state object only shows up in the automaton when the object is stored
under that name. -/
def Automaton.set_start (a : Automaton) (name : String) : Automaton :=
  let a1 : Automaton :=
    match a.start_state with
    | none => a
    | some old =>
      if old ≠ "" ∧ old ≠ name then
        { a with states := dictUpdate a.states old (fun st => { st with is_start := false }) }
      else a
  { a1 with
    start_state := some name,
    states := dictUpdate a1.states name (fun st => { st with is_start := true }) }

/-- `set_accept(state)`: set the state's flag and add its name to the
accept set. -/
def Automaton.set_accept (a : Automaton) (name : String) : Automaton :=
  { a with
    states := dictUpdate a.states name (fun st => { st with is_accept := true }),
    accept_states := insertNew a.accept_states name }

/-- `add_transition` on the transition table of the source state:
create an empty list under the symbol if absent, then append the target
name unless already present. -/
def addTransitionTable (trans : List (String × List String)) (symbol toName : String) :
    List (String × List String) :=
  let trans1 := if (dictGet trans symbol).isSome then trans else dictSet trans symbol []
  let lst := (dictGet trans1 symbol).getD []
  if toName ∈ lst then trans1 else dictSet trans1 symbol (lst ++ [toName])

/-- `add_transition(from_state, symbol, to_state)`: mutate the source
state's transition table; only `to_state.name` is read from the
target. -/
def Automaton.add_transition (a : Automaton) (fromName symbol toName : String) : Automaton :=
  { a with
    states := dictUpdate a.states fromName
      (fun st => { st with transitions := addTransitionTable st.transitions symbol toName }) }

/-- The DFA loop of `simulate`: walk one character at a time; reject
when the current name is not a state or has no entry for the character;
otherwise follow index 0 of the target list (`IndexError`, i.e. `none`,
on an empty list); after the input, accept iff the current name is in
the accept set. -/
def dfaLoop (states : List (String × StateData)) (accept : List String) :
    String → List Char → Option Bool
  | current, [] => some (decide (current ∈ accept))
  | current, c :: rest =>
    match dictGet states current with
    | none => some false
    | some st =>
      match dictGet st.transitions (String.singleton c) with
      | none => some false
      | some targets =>
        match targets with
        | [] => none
        | t :: _ => dfaLoop states accept t rest

/-- One NFA step of `simulate`: fold the frontier into `next_states`
(`acc`), raising `KeyError` (`none`) when a frontier name is not a
state, and unioning in the target list when the state has an entry for
the character. -/
def nfaStep (states : List (String × StateData)) :
    List String → List String → Char → Option (List String)
  | [], acc, _ => some acc
  | name :: rest, acc, c =>
    match dictGet states name with
    | none => none
    | some st =>
      match dictGet st.transitions (String.singleton c) with
      | none => nfaStep states rest acc c
      | some ts => nfaStep states rest (setUnion acc ts) c

/-- The NFA loop of `simulate`: step the frontier through the input;
after the input, accept iff some frontier name is in the accept set. -/
def nfaLoop (states : List (String × StateData)) (accept : List String) :
    List String → List Char → Option Bool
  | frontier, [] => some (frontier.any (fun s => decide (s ∈ accept)))
  | frontier, c :: rest =>
    match nfaStep states frontier [] c with
    | none => none
    | some f2 => nfaLoop states accept f2 rest

/-- `simulate(input_str)`: reject when `self.start_state` is falsy
(`None` or the empty string), then run the DFA or NFA loop. -/
def Automaton.simulate (a : Automaton) (w : List Char) : Option Bool :=
  match a.start_state with
  | none => some false
  | some s =>
    if s = "" then some false
    else if a.is_dfa then dfaLoop a.states a.accept_states s w
    else nfaLoop a.states a.accept_states [s] w

/-- The serialized record written by `save_automaton`: state names,
start name (or null), accept names, and the per-state transition
tables. -/
structure SavedData where
  states : List String
  start : Option String
  accept : List String
  transitions : List (String × List (String × List String))
deriving DecidableEq, Repr

/-- `save_automaton`, minus the file dialog and JSON encoding: the
record built from the current automaton (`accept` is `list(set)`, whose
iteration order is arbitrary; the model uses its list as stored). -/
def save_automaton (a : Automaton) : SavedData :=
  { states := a.states.map Prod.fst,
    start := a.start_state,
    accept := a.accept_states,
    transitions := a.states.map (fun p => (p.1, p.2.transitions)) }

/-- The `if data["start"]` step of `load_automaton`: skipped when the
saved start is falsy, otherwise `self.automaton.states[data["start"]]`
raises `KeyError` (`none`) when absent, else `set_start`. -/
def loadStart (a : Automaton) (start : Option String) : Option Automaton :=
  match start with
  | none => some a
  | some s =>
    if s = "" then some a
    else
      match dictGet a.states s with
      | none => none
      | some _ => some (a.set_start s)

/-- The accept loop of `load_automaton`:
`self.automaton.set_accept(self.automaton.states[name])` for each saved
accept name, raising `KeyError` (`none`) when a name is absent. -/
def loadAccept (a : Automaton) : List String → Option Automaton
  | [] => some a
  | n :: rest =>
    match dictGet a.states n with
    | none => none
    | some _ => loadAccept (a.set_accept n) rest

/-- The innermost loop of `load_automaton`: for each saved target name,
skip it when it is not a state (`if not to_obj: continue`), otherwise
`add_transition`. -/
def loadTargets (a : Automaton) (fromName symbol : String) : List String → Automaton
  | [] => a
  | t :: rest =>
    match dictGet a.states t with
    | none => loadTargets a fromName symbol rest
    | some _ => loadTargets (a.add_transition fromName symbol t) fromName symbol rest

/-- The middle loop of `load_automaton`: replay each symbol's saved
target list of one source state. -/
def loadSymbols (a : Automaton) (fromName : String) :
    List (String × List String) → Automaton
  | [] => a
  | se :: rest => loadSymbols (loadTargets a fromName se.1 se.2) fromName rest

/-- The transitions loop of `load_automaton`: for each saved source
state (skipped when absent), replay every symbol's target list. -/
def loadTransitions (a : Automaton) :
    List (String × List (String × List String)) → Automaton
  | [] => a
  | e :: rest =>
    match dictGet a.states e.1 with
    | none => loadTransitions a rest
    | some _ => loadTransitions (loadSymbols a e.1 e.2) rest

/-- `load_automaton`, minus the file dialog, JSON decoding and drawing:
build a fresh `Automaton(is_dfa=True)`, add a fresh state for every
saved name, restore the start state (if truthy), the accept states and
the transitions.  The previous automaton is discarded wholesale: the
result depends only on the record. -/
def load_automaton (d : SavedData) : Option Automaton :=
  let a0 := d.states.foldl (fun a n => a.add_state n StateData.fresh) (Automaton.empty true)
  match loadStart a0 d.start with
  | none => none
  | some a1 =>
    match loadAccept a1 d.accept with
    | none => none
    | some a2 => some (loadTransitions a2 d.transitions)

/-! ## Specification-side descriptions of the simulation walks

These definitions follow the wording of the specification, to be
compared with the embedding of the code above. -/

/-- The DFA walk as the specification describes it: consume one
character at a time; when the current state has no transition entry for
the character (in particular when the current name is not a state, or
the entry is an empty list and so has no first element) the answer is
false; otherwise move to the first (index 0) entry of that symbol's
target list; after the whole input, accept exactly when the current
name is in the accept set. -/
def dfaClaimWalk (states : List (String × StateData)) (accept : List String) :
    String → List Char → Bool
  | current, [] => decide (current ∈ accept)
  | current, c :: rest =>
    match dictGet states current with
    | none => false
    | some st =>
      match dictGet st.transitions (String.singleton c) with
      | none => false
      | some targets =>
        match targets with
        | [] => false
        | t :: _ => dfaClaimWalk states accept t rest

/-- The target list of a state name for a character, as the
specification speaks of it: a name that is not a state, or has no entry
for the character, contributes nothing. -/
def targetsFor (states : List (String × StateData)) (name : String) (c : Char) : List String :=
  match dictGet states name with
  | none => []
  | some st => (dictGet st.transitions (String.singleton c)).getD []

/-- The NFA frontier step as the specification describes it: the union,
over every state in the frontier, of that state's target list for the
character. -/
def nfaClaimStep (states : List (String × StateData)) :
    List String → List String → Char → List String
  | [], acc, _ => acc
  | name :: rest, acc, c => nfaClaimStep states rest (setUnion acc (targetsFor states name c)) c

/-- The NFA walk as the specification describes it: step the frontier
through the input; after the whole input, accept exactly when some
frontier name is in the accept set. -/
def nfaClaimWalk (states : List (String × StateData)) (accept : List String) :
    List String → List Char → Bool
  | frontier, [] => frontier.any (fun s => decide (s ∈ accept))
  | frontier, c :: rest => nfaClaimWalk states accept (nfaClaimStep states frontier [] c) rest

/-! ## Structural invariants -/

/-- Every symbol entry of every state's transition table holds a
non-empty target list (true of tables populated through
`add_transition`). -/
abbrev TablesNonempty (states : List (String × StateData)) : Prop :=
  ∀ p ∈ states, ∀ q ∈ p.2.transitions, q.2 ≠ []

/-- Every destination name stored in a transition table is a key of the
state mapping (no dangling references). -/
abbrev DestsResident (states : List (String × StateData)) : Prop :=
  ∀ p ∈ states, ∀ q ∈ p.2.transitions, ∀ t ∈ q.2, (dictGet states t).isSome

/-- No target list contains duplicate entries. -/
abbrev NoDupTargets (states : List (String × StateData)) : Prop :=
  ∀ p ∈ states, ∀ q ∈ p.2.transitions, q.2.Nodup

/-- Each transition table has unique symbol keys (automatic for a
Python dict). -/
abbrev TablesNodupKeys (states : List (String × StateData)) : Prop :=
  ∀ p ∈ states, (p.2.transitions.map Prod.fst).Nodup

/-- Every state name is non-empty. -/
abbrev NamesNonempty (states : List (String × StateData)) : Prop :=
  ∀ p ∈ states, p.1 ≠ ""

/-- Every state whose `is_start` flag is set is the recorded start
state; with unique keys this makes the flagged state unique. -/
abbrev StartInv (a : Automaton) : Prop :=
  ∀ p ∈ a.states, p.2.is_start = true → a.start_state = some p.1

/-! ## Replay of a transition table through `add_transition`

`load_automaton` rebuilds each state's transition table by calling
`add_transition` once per saved target; these two functions are the net
effect of that replay on the table itself. -/

/-- Replay one symbol's saved target list through `add_transition`. -/
def replayTargets (T : List (String × List String)) (symbol : String) (ts : List String) :
    List (String × List String) :=
  ts.foldl (fun T2 t => addTransitionTable T2 symbol t) T

/-- Replay a whole saved transition table through `add_transition`. -/
def replayTable (T0 T : List (String × List String)) : List (String × List String) :=
  T.foldl (fun T2 se => replayTargets T2 se.1 se.2) T0

/-! ## Concrete instances

`exampleDFA` and `exampleNFA` are the two automatons of the
specification's own test vectors, built through the engine operations;
the remaining instances exhibit edge-case behaviors of the engine. -/

/-- The specification's DFA example: `q0` (start), `q1` (accept),
`q0 --a--> q1`, `q1 --b--> q1`. -/
def exampleDFA : Automaton :=
  ((((((Automaton.empty true).add_state "q0" StateData.fresh).add_state "q1"
      StateData.fresh).set_start "q0").set_accept "q1").add_transition "q0" "a"
      "q1").add_transition "q1" "b" "q1"

/-- The specification's NFA example: `q0` (start) with two `a`
transitions to `q1` and `q2`; `q1` accepts. -/
def exampleNFA : Automaton :=
  (((((((Automaton.empty false).add_state "q0" StateData.fresh).add_state "q1"
      StateData.fresh).add_state "q2" StateData.fresh).set_start "q0").set_accept
      "q1").add_transition "q0" "a" "q1").add_transition "q0" "a" "q2"

/-- A DFA whose single state has the empty string as its name and is
both the start state and accepting: `simulate` trips over Python
truthiness of the start name. -/
def emptyNameStartDFA : Automaton :=
  { states := [("", StateData.fresh)], start_state := some "",
    accept_states := [""], is_dfa := true }

/-- The NFA twin of `emptyNameStartDFA`. -/
def emptyNameStartNFA : Automaton :=
  { states := [("", StateData.fresh)], start_state := some "",
    accept_states := [""], is_dfa := false }

/-- An NFA with a transition to a destination name that is not a state:
the second input character raises `KeyError`. -/
def ghostTargetNFA : Automaton :=
  { states := [("q0", { StateData.fresh with transitions := [("a", ["ghost"])] })],
    start_state := some "q0", accept_states := [], is_dfa := false }

/-- Two states, one with the empty string as its name: `set_start` on
the empty-named state then on the other leaves both flagged. -/
def twoStatesOneUnnamed : Automaton :=
  { states := [("", StateData.fresh), ("q", StateData.fresh)], start_state := none,
    accept_states := [], is_dfa := true }

/-- An NFA that accepts "a" through its second `a`-target: the saved
record has no mode field, so the reload simulates it as a DFA. -/
def modeLossNFA : Automaton :=
  ((((((((Automaton.empty false).add_state "q0" StateData.fresh).add_state "q1"
      StateData.fresh).add_state "q2" StateData.fresh).set_start "q0").set_accept
      "q2").add_transition "q0" "a" "q1").add_transition "q0" "a" "q2")

/-- The start-marking invariant of a well-formed automaton: unique state
names, non-empty state names, and every flagged state is the recorded
start state. -/
abbrev StartOK (a : Automaton) : Prop :=
  (a.states.map Prod.fst).Nodup ∧ NamesNonempty a.states ∧ StartInv a

/-- The automaton `load_automaton` has rebuilt just after its
`add_state` loop: one fresh state per saved name, nothing else set. -/
def freshAutomaton (states : List (String × StateData)) : Automaton :=
  { states := states.map (fun p => (p.1, StateData.fresh)), start_state := none,
    accept_states := [], is_dfa := true }

/-! ## Dictionary and set lemmas -/

section DictLemmas

variable {α : Type u} {β : Type v}

@[simp] theorem dictGet_nil (k : String) : dictGet ([] : List (String × α)) k = none := rfl

theorem dictGet_cons (p : String × α) (rest : List (String × α)) (k : String) :
    dictGet (p :: rest) k = if p.1 = k then some p.2 else dictGet rest k := rfl

theorem dictGet_dictSet_self (d : List (String × α)) (k : String) (v : α) :
    dictGet (dictSet d k v) k = some v := by
  induction d with
  | nil => simp [dictSet, dictGet]
  | cons p rest ih =>
    by_cases h : p.1 = k
    · simp [dictSet, h, dictGet]
    · simp [dictSet, h, dictGet, ih]

theorem dictGet_dictSet_ne (d : List (String × α)) {k k2 : String} (v : α) (h : k ≠ k2) :
    dictGet (dictSet d k v) k2 = dictGet d k2 := by
  induction d with
  | nil => simp [dictSet, dictGet, h]
  | cons p rest ih =>
    by_cases hp : p.1 = k
    · simp [dictSet, hp, dictGet, h]
    · simp [dictSet, hp, dictGet, ih]

theorem dictGet_dictUpdate_self (d : List (String × α)) (k : String) (f : α → α) :
    dictGet (dictUpdate d k f) k = (dictGet d k).map f := by
  induction d with
  | nil => simp [dictUpdate, dictGet]
  | cons p rest ih =>
    by_cases h : p.1 = k
    · simp [dictUpdate, h, dictGet]
    · simp [dictUpdate, h, dictGet, ih]

theorem dictGet_dictUpdate_ne (d : List (String × α)) {k k2 : String} (f : α → α) (h : k ≠ k2) :
    dictGet (dictUpdate d k f) k2 = dictGet d k2 := by
  induction d with
  | nil => simp [dictUpdate]
  | cons p rest ih =>
    by_cases hp : p.1 = k
    · simp [dictUpdate, hp, dictGet, h]
    · simp [dictUpdate, hp, dictGet, ih]

theorem dictGet_dictUpdate (d : List (String × α)) (k k2 : String) (f : α → α) :
    dictGet (dictUpdate d k f) k2 =
      if k = k2 then (dictGet d k).map f else dictGet d k2 := by
  by_cases h : k = k2
  · subst h; simp [dictGet_dictUpdate_self]
  · simp [h, dictGet_dictUpdate_ne d f h]

theorem dictUpdate_keys (d : List (String × α)) (k : String) (f : α → α) :
    (dictUpdate d k f).map Prod.fst = d.map Prod.fst := by
  induction d with
  | nil => rfl
  | cons p rest ih =>
    by_cases h : p.1 = k
    · simp [dictUpdate, h]
    · simp [dictUpdate, h, ih]

theorem dictUpdate_absent (d : List (String × α)) (k : String) (f : α → α)
    (h : dictGet d k = none) : dictUpdate d k f = d := by
  induction d with
  | nil => rfl
  | cons p rest ih =>
    by_cases hp : p.1 = k
    · simp [dictGet, hp] at h
    · simp [dictGet, hp] at h
      simp [dictUpdate, hp, ih h]

theorem dictUpdate_dictUpdate (d : List (String × α)) (k : String) (f g : α → α) :
    dictUpdate (dictUpdate d k f) k g = dictUpdate d k (fun x => g (f x)) := by
  induction d with
  | nil => rfl
  | cons p rest ih =>
    by_cases h : p.1 = k
    · simp [dictUpdate, h]
    · simp [dictUpdate, h, ih]

theorem dictSet_absent (d : List (String × α)) (k : String) (v : α)
    (h : dictGet d k = none) : dictSet d k v = d ++ [(k, v)] := by
  induction d with
  | nil => rfl
  | cons p rest ih =>
    by_cases hp : p.1 = k
    · simp [dictGet, hp] at h
    · simp [dictGet, hp] at h
      simp [dictSet, hp, ih h]

theorem dictSet_eq_self (d : List (String × α)) (k : String) (v : α)
    (h : dictGet d k = some v) : dictSet d k v = d := by
  induction d with
  | nil => simp [dictGet] at h
  | cons p rest ih =>
    obtain ⟨p1, p2⟩ := p
    by_cases hp : p1 = k
    · subst hp
      simp [dictGet] at h
      simp [dictSet, h]
    · simp [dictGet, hp] at h
      simp [dictSet, hp, ih h]

theorem dictGet_append_of_none (d e : List (String × α)) (k : String)
    (h : dictGet d k = none) : dictGet (d ++ e) k = dictGet e k := by
  induction d with
  | nil => simp
  | cons p rest ih =>
    by_cases hp : p.1 = k
    · simp [dictGet, hp] at h
    · simp [dictGet, hp] at h
      simp [dictGet, hp, ih h]

theorem dictGet_isSome_iff (d : List (String × α)) (k : String) :
    (dictGet d k).isSome ↔ k ∈ d.map Prod.fst := by
  induction d with
  | nil => simp [dictGet]
  | cons p rest ih =>
    by_cases hp : p.1 = k
    · simp [dictGet, hp]
    · simp [dictGet, hp, ih, Ne.symm hp]

theorem dictGet_map_value (g : α → β) (d : List (String × α)) (k : String) :
    dictGet (d.map (fun p => (p.1, g p.2))) k = (dictGet d k).map g := by
  induction d with
  | nil => rfl
  | cons p rest ih =>
    by_cases hp : p.1 = k
    · simp [dictGet, hp]
    · simp [dictGet, hp, ih]

theorem mem_insertNew {l : List String} {x y : String} :
    x ∈ insertNew l y ↔ x ∈ l ∨ x = y := by
  unfold insertNew
  by_cases h : y ∈ l
  · simp only [if_pos h]
    constructor
    · exact Or.inl
    · rintro (hx | rfl)
      · exact hx
      · exact h
  · simp [if_neg h]

theorem insertNew_nodup {l : List String} (h : l.Nodup) (y : String) :
    (insertNew l y).Nodup := by
  unfold insertNew
  by_cases hy : y ∈ l
  · simpa [if_pos hy] using h
  · simp only [if_neg hy]
    simpa [List.nodup_append] using ⟨h, hy⟩

theorem insertNew_ne_nil {l : List String} (y : String) (h : l ≠ []) :
    insertNew l y ≠ [] := by
  unfold insertNew
  by_cases hy : y ∈ l
  · simpa [if_pos hy] using h
  · simp [if_neg hy]

theorem insertNew_head {l : List String} (y : String) (h : l ≠ []) :
    (insertNew l y).head? = l.head? := by
  unfold insertNew
  by_cases hy : y ∈ l
  · simp [if_pos hy]
  · simp only [if_neg hy]
    cases l with
    | nil => exact absurd rfl h
    | cons a rest => simp

theorem mem_setUnion {acc ts : List String} {x : String} :
    x ∈ setUnion acc ts ↔ x ∈ acc ∨ x ∈ ts := by
  induction ts generalizing acc with
  | nil => simp [setUnion]
  | cons t rest ih =>
    show x ∈ setUnion (insertNew acc t) rest ↔ _
    rw [ih, mem_insertNew]
    simp only [List.mem_cons]
    tauto

theorem setUnion_nodup {acc : List String} (h : acc.Nodup) (ts : List String) :
    (setUnion acc ts).Nodup := by
  induction ts generalizing acc with
  | nil => exact h
  | cons t rest ih => exact ih (insertNew_nodup h t)

theorem setUnion_head {acc : List String} (ts : List String) (h : acc ≠ []) :
    (setUnion acc ts).head? = acc.head? := by
  induction ts generalizing acc with
  | nil => rfl
  | cons t rest ih =>
    show (setUnion (insertNew acc t) rest).head? = _
    rw [ih (insertNew_ne_nil t h), insertNew_head t h]

theorem setUnion_ne_nil {acc : List String} (ts : List String) (h : acc ≠ []) :
    setUnion acc ts ≠ [] := by
  intro hc
  have := setUnion_head ts h
  rw [hc] at this
  cases acc with
  | nil => exact h rfl
  | cons a rest => simp at this

theorem mem_dedupList {ts : List String} {x : String} :
    x ∈ dedupList ts ↔ x ∈ ts := by
  unfold dedupList
  rw [mem_setUnion]
  simp

theorem dedupList_nodup (ts : List String) : (dedupList ts).Nodup :=
  setUnion_nodup List.nodup_nil ts

theorem dedupList_cons (t : String) (rest : List String) :
    dedupList (t :: rest) = setUnion [t] rest := rfl

theorem dedupList_head (t : String) (rest : List String) :
    ∃ r2, dedupList (t :: rest) = t :: r2 := by
  have h : (dedupList (t :: rest)).head? = some t := by
    rw [dedupList_cons]
    simpa using @setUnion_head [t] rest (by simp)
  cases hd : dedupList (t :: rest) with
  | nil => rw [hd] at h; simp at h
  | cons a r2 =>
    rw [hd] at h
    simp only [List.head?_cons, Option.some.injEq] at h
    subst h
    exact ⟨r2, rfl⟩

theorem dictGet_mem {d : List (String × α)} {k : String} {v : α}
    (h : dictGet d k = some v) : (k, v) ∈ d := by
  induction d with
  | nil => simp [dictGet] at h
  | cons p rest ih =>
    obtain ⟨p1, p2⟩ := p
    by_cases hp : p1 = k
    · subst hp
      simp [dictGet] at h
      simp [h]
    · simp [dictGet, hp] at h
      simp [ih h]

theorem mem_dictSet {d : List (String × α)} {k : String} {v : α} {q : String × α}
    (h : q ∈ dictSet d k v) : q = (k, v) ∨ q ∈ d := by
  induction d with
  | nil => simpa [dictSet] using h
  | cons p rest ih =>
    by_cases hp : p.1 = k
    · simp [dictSet, hp] at h
      rcases h with h | h
      · exact Or.inl h
      · exact Or.inr (List.mem_cons_of_mem _ h)
    · simp [dictSet, hp] at h
      rcases h with h | h
      · exact Or.inr (by simp [h])
      · rcases ih h with h2 | h2
        · exact Or.inl h2
        · exact Or.inr (List.mem_cons_of_mem _ h2)

theorem mem_dictUpdate {d : List (String × α)} {k : String} {f : α → α} {q : String × α}
    (h : q ∈ dictUpdate d k f) : q ∈ d ∨ ∃ v, (k, v) ∈ d ∧ q = (k, f v) := by
  induction d with
  | nil => simp [dictUpdate] at h
  | cons p rest ih =>
    by_cases hp : p.1 = k
    · simp [dictUpdate, hp] at h
      rcases h with h | h
      · exact Or.inr ⟨p.2, by simp [← hp, h]⟩
      · exact Or.inl (List.mem_cons_of_mem _ h)
    · simp [dictUpdate, hp] at h
      rcases h with h | h
      · exact Or.inl (by simp [h])
      · rcases ih h with h2 | ⟨v, hv, hq⟩
        · exact Or.inl (List.mem_cons_of_mem _ h2)
        · exact Or.inr ⟨v, List.mem_cons_of_mem _ hv, hq⟩

theorem mem_dictUpdate_iff {d : List (String × α)} {k : String} {f : α → α} {q : String × α}
    (hnd : (d.map Prod.fst).Nodup) :
    q ∈ dictUpdate d k f ↔ (q ∈ d ∧ q.1 ≠ k) ∨ ∃ v, (k, v) ∈ d ∧ q = (k, f v) := by
  induction d with
  | nil => simp [dictUpdate]
  | cons p rest ih =>
    simp only [List.map_cons, List.nodup_cons] at hnd
    obtain ⟨hp1, hrest⟩ := hnd
    by_cases hp : p.1 = k
    · subst hp
      simp only [dictUpdate, if_pos rfl]
      constructor
      · intro h
        rcases List.mem_cons.mp h with h | h
        · exact Or.inr ⟨p.2, by simp, by simp [h]⟩
        · have hne : q.1 ≠ p.1 := by
            intro he
            exact hp1 (he ▸ List.mem_map_of_mem Prod.fst h)
          exact Or.inl ⟨List.mem_cons_of_mem _ h, hne⟩
      · rintro (⟨hq, hne⟩ | ⟨v, hv, hq⟩)
        · rcases List.mem_cons.mp hq with h | h
          · exact absurd (by rw [h]) hne
          · exact List.mem_cons_of_mem _ h
        · rcases List.mem_cons.mp hv with h | h
          · have : v = p.2 := by
              have := congrArg Prod.snd h
              simpa using this
            subst this
            subst hq
            exact List.mem_cons_self _ _
          · exact absurd (List.mem_map_of_mem Prod.fst h) (by simpa using hp1)
    · simp only [dictUpdate, if_neg hp]
      constructor
      · intro h
        rcases List.mem_cons.mp h with h | h
        · exact Or.inl ⟨by simp [h], by rw [h]; exact hp⟩
        · rcases (ih hrest).mp h with ⟨hq, hne⟩ | ⟨v, hv, hq⟩
          · exact Or.inl ⟨List.mem_cons_of_mem _ hq, hne⟩
          · exact Or.inr ⟨v, List.mem_cons_of_mem _ hv, hq⟩
      · rintro (⟨hq, hne⟩ | ⟨v, hv, hq⟩)
        · rcases List.mem_cons.mp hq with h | h
          · exact h ▸ List.mem_cons_self _ _
          · exact List.mem_cons_of_mem _ ((ih hrest).mpr (Or.inl ⟨h, hne⟩))
        · rcases List.mem_cons.mp hv with h | h
          · exact absurd (congrArg Prod.fst h).symm (by simpa using hp)
          · exact List.mem_cons_of_mem _ ((ih hrest).mpr (Or.inr ⟨v, h, hq⟩))

theorem dictGet_append_of_some {d : List (String × α)} {k : String} {v : α}
    (e : List (String × α)) (h : dictGet d k = some v) : dictGet (d ++ e) k = some v := by
  induction d with
  | nil => simp [dictGet] at h
  | cons p rest ih =>
    by_cases hp : p.1 = k
    · simp [dictGet, hp] at h
      simp [dictGet, hp, h]
    · simp [dictGet, hp] at h
      simp [dictGet, hp, ih h]

theorem dictSet_dictSet (d : List (String × α)) (k : String) (v w : α) :
    dictSet (dictSet d k v) k w = dictSet d k w := by
  induction d with
  | nil =>
    show dictSet [(k, v)] k w = [(k, w)]
    simp only [dictSet]
    simp
  | cons p rest ih =>
    obtain ⟨p1, p2⟩ := p
    by_cases hp : p1 = k
    · subst hp
      simp [dictSet]
    · simp [dictSet, hp, ih]

theorem dictSet_append_absent {d : List (String × α)} {k : String}
    (h : dictGet d k = none) (v w : α) : dictSet (d ++ [(k, v)]) k w = d ++ [(k, w)] := by
  induction d with
  | nil => simp [dictSet]
  | cons p rest ih =>
    by_cases hp : p.1 = k
    · simp [dictGet, hp] at h
    · simp [dictGet, hp] at h
      simp [dictSet, hp, ih h]

theorem dictUpdate_id (d : List (String × α)) (k : String) :
    dictUpdate d k (fun x => x) = d := by
  induction d with
  | nil => rfl
  | cons p rest ih =>
    obtain ⟨p1, p2⟩ := p
    by_cases hp : p1 = k
    · subst hp
      simp [dictUpdate]
    · simp [dictUpdate, hp, ih]

theorem mem_insertNew_self (l : List String) (x : String) : x ∈ insertNew l x := by
  rw [mem_insertNew]
  exact Or.inr rfl

theorem insertNew_idem (l : List String) (x : String) :
    insertNew (insertNew l x) x = insertNew l x := by
  unfold insertNew
  by_cases hx : x ∈ l
  · simp [if_pos hx]
  · simp [if_neg hx]

theorem dictGet_isSome_dictUpdate (d : List (String × α)) (k k2 : String) (f : α → α) :
    (dictGet (dictUpdate d k f) k2).isSome = (dictGet d k2).isSome := by
  rw [dictGet_dictUpdate]
  by_cases h : k = k2
  · simp [h]
  · simp [h]

end DictLemmas

/-! ## Lemmas about the engine operations, the simulation walks, and the save/load round trip -/

/-! ## Lemmas about `addTransitionTable` and its replay -/

theorem insertNew_ne_nil_any (l : List String) (y : String) : insertNew l y ≠ [] := by
  unfold insertNew
  by_cases hy : y ∈ l
  · simp only [if_pos hy]
    intro hc
    rw [hc] at hy
    simp at hy
  · simp [if_neg hy]

theorem count_insertNew_self {l : List String} (h : l.Nodup) (t : String) :
    (insertNew l t).count t = 1 := by
  unfold insertNew
  by_cases ht : t ∈ l
  · rw [if_pos ht]
    exact List.count_eq_one_of_mem h ht
  · rw [if_neg ht]
    rw [List.count_append]
    rw [List.count_eq_zero_of_not_mem ht]
    simp

theorem addTransitionTable_absent {trans : List (String × List String)} {symbol : String}
    (h : dictGet trans symbol = none) (toName : String) :
    addTransitionTable trans symbol toName = trans ++ [(symbol, [toName])] := by
  unfold addTransitionTable
  rw [h]
  simp only [Option.isSome_none, Bool.false_eq_true, if_false, dictGet_dictSet_self,
    Option.getD_some, List.not_mem_nil, List.nil_append, dictSet_dictSet]
  exact dictSet_absent trans symbol [toName] h

theorem addTransitionTable_present {trans : List (String × List String)} {symbol : String}
    {lst : List String} (h : dictGet trans symbol = some lst) (toName : String) :
    addTransitionTable trans symbol toName = dictSet trans symbol (insertNew lst toName) := by
  unfold addTransitionTable
  rw [h]
  simp only [Option.isSome_some, if_true]
  rw [h]
  simp only [Option.getD_some]
  unfold insertNew
  by_cases ht : toName ∈ lst
  · rw [if_pos ht, if_pos ht]
    exact (dictSet_eq_self trans symbol lst h).symm
  · rw [if_neg ht, if_neg ht]

theorem dictGet_addTransitionTable (trans : List (String × List String))
    (symbol toName k : String) :
    dictGet (addTransitionTable trans symbol toName) k =
      if symbol = k then some (insertNew ((dictGet trans symbol).getD []) toName)
      else dictGet trans k := by
  cases hg : dictGet trans symbol with
  | none =>
    rw [addTransitionTable_absent hg]
    by_cases hk : symbol = k
    · subst hk
      rw [if_pos rfl, dictGet_append_of_none trans _ symbol hg]
      simp [dictGet, hg, insertNew]
    · rw [if_neg hk]
      cases hgk : dictGet trans k with
      | none =>
        rw [dictGet_append_of_none trans _ k hgk]
        simp [dictGet, hk]
      | some v => rw [dictGet_append_of_some _ hgk]
  | some lst =>
    rw [addTransitionTable_present hg]
    by_cases hk : symbol = k
    · subst hk
      rw [if_pos rfl, dictGet_dictSet_self]
      simp [hg]
    · rw [if_neg hk, dictGet_dictSet_ne _ _ hk]

theorem mem_addTransitionTable {trans : List (String × List String)} {symbol toName : String}
    {q : String × List String} (h : q ∈ addTransitionTable trans symbol toName) :
    q ∈ trans ∨ q = (symbol, insertNew ((dictGet trans symbol).getD []) toName) := by
  cases hg : dictGet trans symbol with
  | none =>
    rw [addTransitionTable_absent hg] at h
    rcases List.mem_append.mp h with h2 | h2
    · exact Or.inl h2
    · simp only [List.mem_singleton] at h2
      exact Or.inr (by simp [h2, hg, insertNew])
  | some lst =>
    rw [addTransitionTable_present hg] at h
    rcases mem_dictSet h with h2 | h2
    · exact Or.inr (by simp [h2, hg])
    · exact Or.inl h2

theorem replayTargets_present {T : List (String × List String)} {symbol : String}
    {cur : List String} (h : dictGet T symbol = some cur) (ts : List String) :
    replayTargets T symbol ts = dictSet T symbol (setUnion cur ts) := by
  induction ts generalizing T cur with
  | nil =>
    show T = dictSet T symbol cur
    exact (dictSet_eq_self T symbol cur h).symm
  | cons t rest ih =>
    show replayTargets (addTransitionTable T symbol t) symbol rest = _
    rw [addTransitionTable_present h]
    have h2 : dictGet (dictSet T symbol (insertNew cur t)) symbol = some (insertNew cur t) :=
      dictGet_dictSet_self T symbol _
    rw [ih h2, dictSet_dictSet]
    rfl

theorem replayTargets_absent {T : List (String × List String)} {symbol : String}
    (h : dictGet T symbol = none) (t : String) (rest : List String) :
    replayTargets T symbol (t :: rest) = T ++ [(symbol, dedupList (t :: rest))] := by
  show replayTargets (addTransitionTable T symbol t) symbol rest = _
  rw [addTransitionTable_absent h]
  have h2 : dictGet (T ++ [(symbol, [t])]) symbol = some [t] := by
    rw [dictGet_append_of_none T _ symbol h]
    simp [dictGet]
  rw [replayTargets_present h2, dictSet_append_absent h, dedupList_cons]

theorem setUnion_nil (acc : List String) : setUnion acc [] = acc := rfl

theorem replayTable_get (T : List (String × List String)) :
    ∀ T0 : List (String × List String), (T.map Prod.fst).Nodup → (∀ q ∈ T, q.2 ≠ []) →
      (∀ q ∈ T, dictGet T0 q.1 = none) → ∀ sym : String,
      (∀ ts, dictGet T sym = some ts → dictGet (replayTable T0 T) sym = some (dedupList ts)) ∧
      (dictGet T sym = none → dictGet (replayTable T0 T) sym = dictGet T0 sym) := by
  induction T with
  | nil =>
    intro T0 _ _ _ sym
    exact ⟨fun ts hts => by simp [dictGet] at hts, fun _ => rfl⟩
  | cons e rest ih =>
    intro T0 hnd hne habs sym
    obtain ⟨sym0, ts0⟩ := e
    have hts0 : ts0 ≠ [] := hne (sym0, ts0) (List.mem_cons_self _ _)
    have h0 : dictGet T0 sym0 = none := habs _ (List.mem_cons_self _ _)
    simp only [List.map_cons, List.nodup_cons] at hnd
    obtain ⟨hs0, hndr⟩ := hnd
    cases ts0 with
    | nil => exact absurd rfl hts0
    | cons t ts1 =>
    have hrt : replayTable T0 ((sym0, t :: ts1) :: rest)
        = replayTable (T0 ++ [(sym0, dedupList (t :: ts1))]) rest := by
      show replayTable (replayTargets T0 sym0 (t :: ts1)) rest = _
      rw [replayTargets_absent h0]
    have habs2 : ∀ q ∈ rest, dictGet (T0 ++ [(sym0, dedupList (t :: ts1))]) q.1 = none := by
      intro q hq
      rw [dictGet_append_of_none _ _ _ (habs q (List.mem_cons_of_mem _ hq))]
      have hne2 : sym0 ≠ q.1 := by
        intro he
        exact hs0 (he ▸ List.mem_map_of_mem Prod.fst hq)
      simp [dictGet, hne2]
    have hner : ∀ q ∈ rest, q.2 ≠ [] := fun q hq => hne q (List.mem_cons_of_mem _ hq)
    have ihr := ih (T0 ++ [(sym0, dedupList (t :: ts1))]) hndr hner habs2 sym
    by_cases hs : sym0 = sym
    · subst hs
      have hrnone : dictGet rest sym0 = none := by
        cases hg : dictGet rest sym0 with
        | none => rfl
        | some v =>
          exact absurd ((dictGet_isSome_iff rest sym0).mp (by simp [hg])) hs0
      constructor
      · intro ts hts
        rw [dictGet_cons, if_pos rfl] at hts
        cases hts
        rw [hrt, ihr.2 hrnone, dictGet_append_of_none _ _ _ h0]
        simp [dictGet]
      · intro hnone
        rw [dictGet_cons, if_pos rfl] at hnone
        simp at hnone
    · constructor
      · intro ts hts
        rw [dictGet_cons, if_neg hs] at hts
        rw [hrt]
        exact ihr.1 ts hts
      · intro hnone
        rw [dictGet_cons, if_neg hs] at hnone
        rw [hrt, ihr.2 hnone]
        cases hg : dictGet T0 sym with
        | none =>
          rw [dictGet_append_of_none _ _ _ hg]
          simp [dictGet, hs]
        | some v => rw [dictGet_append_of_some _ hg]

theorem dictGet_map_transitions_dictUpdate (d : List (String × StateData)) (k n : String)
    (f : StateData → StateData) (hf : ∀ st, (f st).transitions = st.transitions) :
    (dictGet (dictUpdate d k f) n).map StateData.transitions
      = (dictGet d n).map StateData.transitions := by
  rw [dictGet_dictUpdate]
  by_cases h : k = n
  · subst h
    cases dictGet d k with
    | none => simp
    | some st => simp [hf]
  · simp [h]

theorem dfaLoop_eq_claimWalk (states : List (String × StateData)) (accept : List String)
    (ht : TablesNonempty states) :
    ∀ cur w, dfaLoop states accept cur w = some (dfaClaimWalk states accept cur w) := by
  intro cur w
  induction w generalizing cur with
  | nil => rfl
  | cons c rest ih =>
    cases hg : dictGet states cur with
    | none => simp [dfaLoop, dfaClaimWalk, hg]
    | some st =>
      cases hgt : dictGet st.transitions (String.singleton c) with
      | none => simp [dfaLoop, dfaClaimWalk, hg, hgt]
      | some targets =>
        cases targets with
        | nil => exact absurd rfl (ht (cur, st) (dictGet_mem hg) _ (dictGet_mem hgt))
        | cons t ts => simp [dfaLoop, dfaClaimWalk, hg, hgt, ih]

theorem dfaLoop_isSome (states : List (String × StateData)) (accept : List String)
    (ht : TablesNonempty states) (cur : String) (w : List Char) :
    (dfaLoop states accept cur w).isSome := by
  rw [dfaLoop_eq_claimWalk states accept ht]
  rfl

theorem nfaStep_eq_claimStep (states : List (String × StateData)) :
    ∀ frontier acc c, (∀ n ∈ frontier, (dictGet states n).isSome) →
      nfaStep states frontier acc c = some (nfaClaimStep states frontier acc c) := by
  intro frontier
  induction frontier with
  | nil => intro acc c _; rfl
  | cons name rest ih =>
    intro acc c hres
    have h1 : (dictGet states name).isSome := hres name (List.mem_cons_self _ _)
    obtain ⟨st, hst⟩ := Option.isSome_iff_exists.mp h1
    have ihr := ih (setUnion acc (targetsFor states name c)) c
      (fun n hn => hres n (List.mem_cons_of_mem _ hn))
    cases hgt : dictGet st.transitions (String.singleton c) with
    | none =>
      simp [nfaStep, nfaClaimStep, hst, hgt, targetsFor, setUnion_nil] at ihr ⊢
      exact ihr
    | some ts =>
      simp [nfaStep, nfaClaimStep, hst, hgt, targetsFor] at ihr ⊢
      exact ihr

theorem mem_nfaClaimStep (states : List (String × StateData)) :
    ∀ frontier acc (c : Char) (x : String), x ∈ nfaClaimStep states frontier acc c ↔
      x ∈ acc ∨ ∃ g ∈ frontier, x ∈ targetsFor states g c := by
  intro frontier
  induction frontier with
  | nil => intro acc c x; simp [nfaClaimStep]
  | cons name rest ih =>
    intro acc c x
    show x ∈ nfaClaimStep states rest (setUnion acc (targetsFor states name c)) c ↔ _
    rw [ih, mem_setUnion]
    constructor
    · rintro ((hx | hx) | ⟨g, hg, hx⟩)
      · exact Or.inl hx
      · exact Or.inr ⟨name, List.mem_cons_self _ _, hx⟩
      · exact Or.inr ⟨g, List.mem_cons_of_mem _ hg, hx⟩
    · rintro (hx | ⟨g, hg, hx⟩)
      · exact Or.inl (Or.inl hx)
      · rcases List.mem_cons.mp hg with h | h
        · exact Or.inl (Or.inr (h ▸ hx))
        · exact Or.inr ⟨g, h, hx⟩

theorem targetsFor_resident {states : List (String × StateData)} (hdest : DestsResident states)
    {g : String} {c : Char} {x : String} (hx : x ∈ targetsFor states g c) :
    (dictGet states x).isSome := by
  cases hg : dictGet states g with
  | none => simp [targetsFor, hg] at hx
  | some st =>
    simp only [targetsFor, hg] at hx
    cases hgt : dictGet st.transitions (String.singleton c) with
    | none => simp [hgt] at hx
    | some ts =>
      rw [hgt] at hx
      simp only [Option.getD_some] at hx
      exact hdest (g, st) (dictGet_mem hg) _ (dictGet_mem hgt) x hx

theorem nfaLoop_eq_claimWalk (states : List (String × StateData)) (accept : List String)
    (hdest : DestsResident states) :
    ∀ w frontier, (∀ n ∈ frontier, (dictGet states n).isSome) →
      nfaLoop states accept frontier w = some (nfaClaimWalk states accept frontier w) := by
  intro w
  induction w with
  | nil => intro frontier _; rfl
  | cons c rest ih =>
    intro frontier hres
    have hstep := nfaStep_eq_claimStep states frontier [] c hres
    have hres2 : ∀ n ∈ nfaClaimStep states frontier [] c, (dictGet states n).isSome := by
      intro n hn
      rcases (mem_nfaClaimStep states frontier [] c n).mp hn with h | ⟨g, _, hx⟩
      · simp at h
      · exact targetsFor_resident hdest hx
    simp [nfaLoop, nfaClaimWalk, hstep]
    exact ih _ hres2

theorem nfaLoop_isSome (states : List (String × StateData)) (accept : List String)
    (hdest : DestsResident states) (w : List Char) (frontier : List String)
    (hres : ∀ n ∈ frontier, (dictGet states n).isSome) :
    (nfaLoop states accept frontier w).isSome := by
  rw [nfaLoop_eq_claimWalk states accept hdest w frontier hres]
  rfl

theorem tablesNonempty_preserved_dictUpdate {states : List (String × StateData)}
    (h : TablesNonempty states) (k : String) (f : StateData → StateData)
    (hf : ∀ st, (f st).transitions = st.transitions) :
    TablesNonempty (dictUpdate states k f) := by
  intro p hp q hq
  rcases mem_dictUpdate hp with hp2 | ⟨v, hv, rfl⟩
  · exact h p hp2 q hq
  · have hq2 : q ∈ v.transitions := by simpa [hf v] using hq
    exact h (k, v) hv q hq2

theorem tablesNonempty_add_transition (a : Automaton) (h : TablesNonempty a.states)
    (f sym t : String) : TablesNonempty (a.add_transition f sym t).states := by
  intro p hp q hq
  rcases mem_dictUpdate hp with hp2 | ⟨v, hv, rfl⟩
  · exact h p hp2 q hq
  · have hq2 : q ∈ addTransitionTable v.transitions sym t := by simpa using hq
    rcases mem_addTransitionTable hq2 with h2 | h2
    · exact h (f, v) hv q h2
    · rw [h2]
      exact insertNew_ne_nil_any _ _

theorem tablesNonempty_add_state (a : Automaton) (h : TablesNonempty a.states)
    (n : String) : TablesNonempty (a.add_state n StateData.fresh).states := by
  intro p hp q hq
  rcases mem_dictSet hp with hp2 | hp2
  · rw [hp2] at hq
    simp [StateData.fresh] at hq
  · exact h p hp2 q hq

theorem tablesNonempty_set_start (a : Automaton) (h : TablesNonempty a.states) (n : String) :
    TablesNonempty (a.set_start n).states := by
  have step : ∀ (d : List (String × StateData)), TablesNonempty d →
      ∀ k b, TablesNonempty (dictUpdate d k (fun st => { st with is_start := b })) :=
    fun d hd k b => tablesNonempty_preserved_dictUpdate hd k _ (fun _ => rfl)
  unfold Automaton.set_start
  cases hs : a.start_state with
  | none => exact step _ h n true
  | some old =>
    by_cases hc : old ≠ "" ∧ old ≠ n
    · simp only [if_pos hc]
      exact step _ (step _ h old false) n true
    · simp only [if_neg hc]
      exact step _ h n true

theorem tablesNonempty_set_accept (a : Automaton) (h : TablesNonempty a.states) (n : String) :
    TablesNonempty (a.set_accept n).states :=
  tablesNonempty_preserved_dictUpdate h n _ (fun _ => rfl)

/-- C10: starting from the empty automaton, the engine operations keep
every stored symbol's target list non-empty (in particular
`add_transition` always appends into the list it may have just
created), so in the DFA branch of `simulate` the index 0 access behind
the key check can never fail: `dfaLoop` always returns an answer. -/
theorem add_transition_targets_nonempty :
    (∀ b, TablesNonempty (Automaton.empty b).states) ∧
    (∀ a : Automaton, TablesNonempty a.states →
      ∀ n, TablesNonempty (a.add_state n StateData.fresh).states) ∧
    (∀ a : Automaton, TablesNonempty a.states →
      ∀ f sym t, TablesNonempty (a.add_transition f sym t).states) ∧
    (∀ a : Automaton, TablesNonempty a.states →
      ∀ n, TablesNonempty (a.set_start n).states ∧ TablesNonempty (a.set_accept n).states) ∧
    (∀ a : Automaton, TablesNonempty a.states →
      ∀ cur w, (dfaLoop a.states a.accept_states cur w).isSome) :=
  ⟨fun _ p hp => by simp [Automaton.empty] at hp,
   fun a h n => tablesNonempty_add_state a h n,
   fun a h f sym t => tablesNonempty_add_transition a h f sym t,
   fun a h n => ⟨tablesNonempty_set_start a h n, tablesNonempty_set_accept a h n⟩,
   fun a h cur w => dfaLoop_isSome a.states a.accept_states h cur w⟩

theorem add_transition_targets_nonempty_witness :
    TablesNonempty exampleDFA.states ∧
    (dfaLoop exampleDFA.states exampleDFA.accept_states "q0" ['a', 'b']).isSome :=
  ⟨by decide, add_transition_targets_nonempty.2.2.2.2 exampleDFA (by decide) "q0" ['a', 'b']⟩

/-- C5: with no start state set, `simulate` rejects every input string,
including the empty one, in both DFA and NFA mode. -/
theorem simulate_rejects_without_start (a : Automaton) (w : List Char)
    (h : a.start_state = none) : a.simulate w = some false := by
  simp [Automaton.simulate, h]

theorem simulate_rejects_without_start_witness :
    (Automaton.empty true).start_state = none
      ∧ (Automaton.empty true).simulate [] = some false
      ∧ (Automaton.empty false).start_state = none
      ∧ (Automaton.empty false).simulate ['a'] = some false :=
  ⟨rfl, simulate_rejects_without_start (Automaton.empty true) [] rfl, rfl,
    simulate_rejects_without_start (Automaton.empty false) ['a'] rfl⟩

/-- C8: in NFA mode an empty frontier is a fixed point — one step of the
simulation loop maps it to the empty set again — and the remaining run
over any further input decides reject. -/
theorem nfa_empty_frontier_rejects (states : List (String × StateData))
    (accept : List String) (c : Char) (w : List Char) :
    nfaStep states [] [] c = some [] ∧ nfaLoop states accept [] w = some false := by
  refine ⟨rfl, ?_⟩
  induction w with
  | nil => rfl
  | cons c2 rest ih =>
    show nfaLoop states accept [] rest = some false
    exact ih

theorem noDupTargets_add_transition (a : Automaton) (h : NoDupTargets a.states)
    (f sym t : String) : NoDupTargets (a.add_transition f sym t).states := by
  intro p hp q hq
  rcases mem_dictUpdate hp with hp2 | ⟨v, hv, rfl⟩
  · exact h p hp2 q hq
  · have hq2 : q ∈ addTransitionTable v.transitions sym t := by simpa using hq
    rcases mem_addTransitionTable hq2 with h2 | h2
    · exact h (f, v) hv q h2
    · rw [h2]
      apply insertNew_nodup
      cases hg : dictGet v.transitions sym with
      | none => simp
      | some lst => simpa using h (f, v) hv (sym, lst) (dictGet_mem hg)

/-- C7: for a source state stored in the mapping and free of duplicate
targets, adding the same `(from, symbol, to)` transition twice leaves
exactly one copy of the target name in that symbol's list; and every
`add_transition` call preserves freedom from duplicate target entries. -/
theorem add_transition_dedup (a : Automaton) (f sym t : String) (st : StateData)
    (hres : dictGet a.states f = some st) (hnd : NoDupTargets a.states) :
    (∃ st2 lst,
      dictGet ((a.add_transition f sym t).add_transition f sym t).states f = some st2
        ∧ dictGet st2.transitions sym = some lst ∧ lst.count t = 1) ∧
    (∀ a2 : Automaton, NoDupTargets a2.states →
      ∀ f2 sym2 t2, NoDupTargets ((a2.add_transition f2 sym2 t2).states)) := by
  constructor
  · have hnd0 : ((dictGet st.transitions sym).getD []).Nodup := by
      cases hg : dictGet st.transitions sym with
      | none => simp
      | some lst => simpa using hnd (f, st) (dictGet_mem hres) (sym, lst) (dictGet_mem hg)
    have h1 : dictGet (a.add_transition f sym t).states f
        = some { st with transitions := addTransitionTable st.transitions sym t } := by
      show dictGet (dictUpdate a.states f _) f = _
      rw [dictGet_dictUpdate_self, hres]
      rfl
    have h2 : dictGet ((a.add_transition f sym t).add_transition f sym t).states f
        = some { st with transitions :=
            addTransitionTable (addTransitionTable st.transitions sym t) sym t } := by
      show dictGet (dictUpdate (a.add_transition f sym t).states f _) f = _
      rw [dictGet_dictUpdate_self, h1]
      rfl
    have h3 : dictGet (addTransitionTable (addTransitionTable st.transitions sym t) sym t) sym
        = some (insertNew ((dictGet st.transitions sym).getD []) t) := by
      rw [dictGet_addTransitionTable, if_pos rfl, dictGet_addTransitionTable, if_pos rfl]
      simp [insertNew_idem]
    refine ⟨_, _, h2, h3, ?_⟩
    exact count_insertNew_self hnd0 t
  · exact fun a2 h2 f2 sym2 t2 => noDupTargets_add_transition a2 h2 f2 sym2 t2

theorem add_transition_dedup_witness :
    dictGet exampleDFA.states "q0"
      = some { is_start := true, is_accept := false, transitions := [("a", ["q1"])] }
    ∧ NoDupTargets exampleDFA.states
    ∧ (∃ st2 lst,
        dictGet ((exampleDFA.add_transition "q0" "a" "q1").add_transition "q0" "a" "q1").states
          "q0" = some st2 ∧ dictGet st2.transitions "a" = some lst ∧ lst.count "q1" = 1) :=
  ⟨by decide, by decide,
    (add_transition_dedup exampleDFA "q0" "a" "q1"
      { is_start := true, is_accept := false, transitions := [("a", ["q1"])] }
      (by decide) (by decide)).1⟩

/-- C9: `set_accept` on a stored state is idempotent — the second call
changes nothing — the state's name is counted exactly once in the
accept set, the stored state's flag is true, and no name is ever
removed from the accept set. -/
theorem set_accept_idempotent (a : Automaton) (n : String) (st : StateData)
    (hres : dictGet a.states n = some st) (hnd : a.accept_states.Nodup) :
    (a.set_accept n).set_accept n = a.set_accept n ∧
    (a.set_accept n).accept_states.count n = 1 ∧
    dictGet (a.set_accept n).states n = some { st with is_accept := true } ∧
    (∀ x ∈ a.accept_states, x ∈ (a.set_accept n).accept_states) := by
  refine ⟨?_, ?_, ?_, ?_⟩
  · unfold Automaton.set_accept
    rw [dictUpdate_dictUpdate, insertNew_idem]
  · show (insertNew a.accept_states n).count n = 1
    exact count_insertNew_self hnd n
  · show dictGet (dictUpdate a.states n _) n = _
    rw [dictGet_dictUpdate_self, hres]
    rfl
  · intro x hx
    show x ∈ insertNew a.accept_states n
    rw [mem_insertNew]
    exact Or.inl hx

theorem set_accept_idempotent_witness :
    dictGet exampleDFA.states "q1"
      = some { is_start := false, is_accept := true, transitions := [("b", ["q1"])] }
    ∧ exampleDFA.accept_states.Nodup
    ∧ ((exampleDFA.set_accept "q1").set_accept "q1" = exampleDFA.set_accept "q1"
       ∧ (exampleDFA.set_accept "q1").accept_states.count "q1" = 1) :=
  ⟨by decide, by decide,
    ⟨(set_accept_idempotent exampleDFA "q1"
        { is_start := false, is_accept := true, transitions := [("b", ["q1"])] }
        (by decide) (by decide)).1,
     (set_accept_idempotent exampleDFA "q1"
        { is_start := false, is_accept := true, transitions := [("b", ["q1"])] }
        (by decide) (by decide)).2.1⟩⟩

/-- C1 (amended): in DFA mode, when the start state is set to a
non-empty name and every stored target list is non-empty (the
`add_transition` invariant), `simulate` computes exactly the walk the
claim describes — step to index 0 of the current state's entry for the
character, reject as soon as an entry is missing, and accept at the end
iff the final current name is in `accept_states`.  As stated the claim
also covers a start state named by the empty string, where it fails:
see the counterexample. -/
theorem simulate_dfa_follows_claim_walk (a : Automaton) (s : String) (w : List Char)
    (hd : a.is_dfa = true) (hs : a.start_state = some s) (hne : s ≠ "")
    (ht : TablesNonempty a.states) :
    a.simulate w = some (dfaClaimWalk a.states a.accept_states s w) := by
  have hl := dfaLoop_eq_claimWalk a.states a.accept_states ht s w
  simp [Automaton.simulate, hs, hne, hd, hl]

/-- C1 as stated is false at a start state named by the empty string:
`if not self.start_state` treats it as unset, so `simulate` rejects the
empty input even though the claimed walk accepts it (the start state is
accepting). -/
theorem simulate_dfa_follows_claim_walk_cx :
    emptyNameStartDFA.is_dfa = true ∧
    emptyNameStartDFA.start_state = some "" ∧
    TablesNonempty emptyNameStartDFA.states ∧
    emptyNameStartDFA.simulate []
      ≠ some (dfaClaimWalk emptyNameStartDFA.states emptyNameStartDFA.accept_states "" []) := by
  decide

theorem simulate_dfa_follows_claim_walk_witness :
    exampleDFA.is_dfa = true ∧ exampleDFA.start_state = some "q0" ∧ ("q0" : String) ≠ ""
    ∧ TablesNonempty exampleDFA.states
    ∧ exampleDFA.simulate ['a', 'b']
        = some (dfaClaimWalk exampleDFA.states exampleDFA.accept_states "q0" ['a', 'b']) :=
  ⟨by decide, by decide, by decide, by decide,
    simulate_dfa_follows_claim_walk exampleDFA "q0" ['a', 'b']
      (by decide) (by decide) (by decide) (by decide)⟩

/-- C2 (amended): in NFA mode, when the start state is set to a
non-empty name that is stored in the mapping and every stored
destination name is stored as well, `simulate` computes exactly the
frontier walk the claim describes, and one claim-side frontier step is
precisely the union over the frontier of each state's target list for
the character (states lacking an entry contribute nothing).  As stated
the claim also covers a start state named by the empty string, where it
fails: see the counterexample. -/
theorem simulate_nfa_follows_claim_walk (a : Automaton) (s : String) (w : List Char)
    (hd : a.is_dfa = false) (hs : a.start_state = some s) (hne : s ≠ "")
    (hres : (dictGet a.states s).isSome) (hdest : DestsResident a.states) :
    a.simulate w = some (nfaClaimWalk a.states a.accept_states [s] w) ∧
    (∀ frontier acc (c : Char) (x : String), x ∈ nfaClaimStep a.states frontier acc c ↔
      x ∈ acc ∨ ∃ g ∈ frontier, x ∈ targetsFor a.states g c) := by
  constructor
  · have hl := nfaLoop_eq_claimWalk a.states a.accept_states hdest w [s]
      (fun n hn => by cases List.mem_singleton.mp hn; exact hres)
    simp [Automaton.simulate, hs, hne, hd, hl]
  · intro frontier acc c x
    exact mem_nfaClaimStep a.states frontier acc c x

/-- C2 as stated is false at a start state named by the empty string:
the code rejects without building the frontier, while the claimed
frontier walk accepts the empty input (the start state accepts). -/
theorem simulate_nfa_follows_claim_walk_cx :
    emptyNameStartNFA.is_dfa = false ∧
    emptyNameStartNFA.start_state = some "" ∧
    DestsResident emptyNameStartNFA.states ∧
    emptyNameStartNFA.simulate []
      ≠ some (nfaClaimWalk emptyNameStartNFA.states emptyNameStartNFA.accept_states [""] []) := by
  decide

theorem simulate_nfa_follows_claim_walk_witness :
    exampleNFA.is_dfa = false ∧ exampleNFA.start_state = some "q0" ∧ ("q0" : String) ≠ ""
    ∧ (dictGet exampleNFA.states "q0").isSome ∧ DestsResident exampleNFA.states
    ∧ (exampleNFA.simulate ['a']
        = some (nfaClaimWalk exampleNFA.states exampleNFA.accept_states ["q0"] ['a'])
      ∧ (∀ frontier acc (c : Char) (x : String),
          x ∈ nfaClaimStep exampleNFA.states frontier acc c ↔
            x ∈ acc ∨ ∃ g ∈ frontier, x ∈ targetsFor exampleNFA.states g c)) :=
  ⟨by decide, by decide, by decide, by decide, by decide,
    simulate_nfa_follows_claim_walk exampleNFA "q0" ['a']
      (by decide) (by decide) (by decide) (by decide) (by decide)⟩

/-- C3 (amended): `simulate` returns a boolean — never raises — for
every automaton whose stored target lists are non-empty, whose stored
destination names are all stored states, and whose start name, when set
and truthy, is a stored state; all failure paths (no start state,
missing entry, empty frontier) resolve to `false` rather than an
error.  As stated — for arbitrary dangling destination names — the
claim is false in NFA mode, where `self.states[state_name]` raises
`KeyError`: see the counterexample. -/
theorem simulate_total_of_wellformed (a : Automaton) (w : List Char)
    (ht : TablesNonempty a.states) (hdest : DestsResident a.states)
    (hstart : ∀ s ∈ a.start_state.toList, s = "" ∨ (dictGet a.states s).isSome) :
    (a.simulate w).isSome := by
  unfold Automaton.simulate
  cases hs : a.start_state with
  | none => rfl
  | some s =>
    by_cases hne : s = ""
    · simp [hne]
    · have hsome : (dictGet a.states s).isSome := by
        rcases hstart s (by simp [hs]) with h | h
        · exact absurd h hne
        · exact h
      by_cases hd : a.is_dfa
      · simp only [if_neg hne, hd, if_true]
        exact dfaLoop_isSome a.states a.accept_states ht s w
      · simp only [if_neg hne, hd, if_false]
        exact nfaLoop_isSome a.states a.accept_states hdest w [s]
          (fun n hn => by cases List.mem_singleton.mp hn; exact hsome)

/-- C3 as stated is false: in NFA mode a dangling destination name in
the frontier raises `KeyError` (modelled as `none`) instead of
returning a boolean. -/
theorem simulate_total_of_wellformed_cx :
    ghostTargetNFA.simulate ['a', 'a'] = none
    ∧ (ghostTargetNFA.simulate ['a', 'a']).isSome = false := by
  decide

theorem simulate_total_of_wellformed_witness :
    TablesNonempty exampleNFA.states ∧ DestsResident exampleNFA.states
    ∧ (∀ s ∈ exampleNFA.start_state.toList, s = "" ∨ (dictGet exampleNFA.states s).isSome)
    ∧ (exampleNFA.simulate ['a', 'a']).isSome :=
  ⟨by decide, by decide, by decide,
    simulate_total_of_wellformed exampleNFA ['a', 'a'] (by decide) (by decide) (by decide)⟩

theorem dictSet_keys (d : List (String × StateData)) (k : String) (v : StateData) :
    (dictSet d k v).map Prod.fst
      = if (dictGet d k).isSome then d.map Prod.fst else d.map Prod.fst ++ [k] := by
  induction d with
  | nil => simp [dictSet, dictGet]
  | cons p rest ih =>
    by_cases hp : p.1 = k
    · simp [dictSet, hp, dictGet]
    · simp only [dictSet, if_neg hp, dictGet, List.map_cons, ih]
      by_cases hg : (dictGet rest k).isSome
      · simp [hg]
      · simp [hg]

theorem keys_nodup_eq {d : List (String × StateData)} (hnd : (d.map Prod.fst).Nodup)
    {p q : String × StateData} (hp : p ∈ d) (hq : q ∈ d) (h : p.1 = q.1) : p = q := by
  induction d with
  | nil => simp at hp
  | cons r rest ih =>
    simp only [List.map_cons, List.nodup_cons] at hnd
    obtain ⟨hr, hrest⟩ := hnd
    rcases List.mem_cons.mp hp with hp2 | hp2 <;> rcases List.mem_cons.mp hq with hq2 | hq2
    · rw [hp2, hq2]
    · exfalso
      apply hr
      rw [hp2] at h
      exact h ▸ List.mem_map_of_mem Prod.fst hq2
    · exfalso
      apply hr
      rw [hq2] at h
      exact h ▸ List.mem_map_of_mem Prod.fst hp2
    · exact ih hrest hp2 hq2

theorem name_ne_empty_of_isSome {a : Automaton} (hn : NamesNonempty a.states) {k : String}
    (h : (dictGet a.states k).isSome) : k ≠ "" := by
  obtain ⟨v, hv⟩ := Option.isSome_iff_exists.mp h
  exact hn (k, v) (dictGet_mem hv)

theorem namesNonempty_dictUpdate {d : List (String × StateData)} (hn : NamesNonempty d)
    (k : String) (f : StateData → StateData) : NamesNonempty (dictUpdate d k f) := by
  intro p hp
  rcases mem_dictUpdate hp with hp2 | ⟨v, hv, rfl⟩
  · exact hn p hp2
  · exact hn (k, v) hv

theorem set_start_start_state (a : Automaton) (n : String) :
    (a.set_start n).start_state = some n := rfl

theorem set_start_states (a : Automaton) (n : String) :
    (a.set_start n).states =
      dictUpdate
        (match a.start_state with
          | none => a.states
          | some old =>
            if old ≠ "" ∧ old ≠ n then
              dictUpdate a.states old (fun st => { st with is_start := false })
            else a.states)
        n (fun st => { st with is_start := true }) := by
  unfold Automaton.set_start
  cases a.start_state with
  | none => rfl
  | some old =>
    by_cases hc : old ≠ "" ∧ old ≠ n
    · simp [if_pos hc]
    · simp [if_neg hc]

theorem set_start_states_none (a : Automaton) (n : String) (hs : a.start_state = none) :
    (a.set_start n).states = dictUpdate a.states n (fun st => { st with is_start := true }) := by
  rw [set_start_states, hs]

theorem set_start_states_clear (a : Automaton) (n old : String) (hs : a.start_state = some old)
    (hc : old ≠ "" ∧ old ≠ n) :
    (a.set_start n).states =
      dictUpdate (dictUpdate a.states old (fun st => { st with is_start := false })) n
        (fun st => { st with is_start := true }) := by
  simp only [set_start_states, hs]
  rw [if_pos hc]

theorem set_start_states_keep (a : Automaton) (n old : String) (hs : a.start_state = some old)
    (hc : ¬(old ≠ "" ∧ old ≠ n)) :
    (a.set_start n).states = dictUpdate a.states n (fun st => { st with is_start := true }) := by
  simp only [set_start_states, hs]
  rw [if_neg hc]

theorem startOK_set_start (a : Automaton) (h : StartOK a) (n : String) :
    StartOK (a.set_start n) := by
  obtain ⟨hk, hn, hi⟩ := h
  cases hs : a.start_state with
  | none =>
    refine ⟨?_, ?_, ?_⟩
    · rw [set_start_states_none a n hs, dictUpdate_keys]
      exact hk
    · rw [set_start_states_none a n hs]
      exact namesNonempty_dictUpdate hn _ _
    · intro p hp hflag
      rw [set_start_states_none a n hs] at hp
      rw [set_start_start_state]
      rcases mem_dictUpdate hp with hp2 | ⟨v, hv, rfl⟩
      · exact absurd (hi p hp2 hflag) (by simp [hs])
      · rfl
  | some old =>
    by_cases hc : old ≠ "" ∧ old ≠ n
    · refine ⟨?_, ?_, ?_⟩
      · rw [set_start_states_clear a n old hs hc, dictUpdate_keys, dictUpdate_keys]
        exact hk
      · rw [set_start_states_clear a n old hs hc]
        exact namesNonempty_dictUpdate (namesNonempty_dictUpdate hn _ _) _ _
      · intro p hp hflag
        rw [set_start_states_clear a n old hs hc] at hp
        rw [set_start_start_state]
        rcases mem_dictUpdate hp with hp2 | ⟨v, hv, rfl⟩
        · exfalso
          have hmem := (mem_dictUpdate_iff (f := fun st => { st with is_start := false })
            (k := old) hk).mp hp2
          rcases hmem with ⟨hp4, hne4⟩ | ⟨v3, hv3, rfl⟩
          · have hstart := hi p hp4 hflag
            rw [hs] at hstart
            apply hne4
            injection hstart with h2
            exact h2.symm
          · simp at hflag
        · rfl
    · have hoe : old = "" ∨ old = n := by
        by_cases h1 : old = ""
        · exact Or.inl h1
        · by_cases h2 : old = n
          · exact Or.inr h2
          · exact absurd ⟨h1, h2⟩ hc
      refine ⟨?_, ?_, ?_⟩
      · rw [set_start_states_keep a n old hs hc, dictUpdate_keys]
        exact hk
      · rw [set_start_states_keep a n old hs hc]
        exact namesNonempty_dictUpdate hn _ _
      · intro p hp hflag
        rw [set_start_states_keep a n old hs hc] at hp
        rw [set_start_start_state]
        rcases mem_dictUpdate hp with hp2 | ⟨v, hv, rfl⟩
        · have hstart := hi p hp2 hflag
          rw [hs] at hstart
          have hpold : old = p.1 := by injection hstart
          rcases hoe with h1 | h1
          · exact absurd (h1 ▸ hpold).symm (hn p hp2)
          · rw [← hpold, h1]
        · rfl

theorem startOK_add_state (a : Automaton) (h : StartOK a) (n : String) (st : StateData)
    (hne : n ≠ "") (hflag : st.is_start = false) : StartOK (a.add_state n st) := by
  obtain ⟨hk, hn, hi⟩ := h
  refine ⟨?_, ?_, ?_⟩
  · show ((dictSet a.states n st).map Prod.fst).Nodup
    rw [dictSet_keys]
    by_cases hg : (dictGet a.states n).isSome
    · simp only [if_pos hg]
      exact hk
    · simp only [if_neg hg]
      rw [List.nodup_append]
      refine ⟨hk, List.nodup_singleton n, ?_⟩
      intro x hx hx2
      simp only [List.mem_singleton] at hx2
      subst hx2
      exact hg ((dictGet_isSome_iff a.states x).mpr hx)
  · intro p hp
    rcases mem_dictSet hp with hp2 | hp2
    · rw [hp2]
      exact hne
    · exact hn p hp2
  · intro p hp hf
    rcases mem_dictSet hp with hp2 | hp2
    · rw [hp2] at hf
      simp [hflag] at hf
    · exact hi p hp2 hf

theorem startInv_dictUpdate_preserving (a : Automaton) (k : String)
    (f : StateData → StateData) (hf : ∀ st, (f st).is_start = st.is_start)
    (hi : StartInv a) :
    ∀ p ∈ dictUpdate a.states k f, p.2.is_start = true → a.start_state = some p.1 := by
  intro p hp hflag
  rcases mem_dictUpdate hp with hp2 | ⟨v, hv, rfl⟩
  · exact hi p hp2 hflag
  · have : v.is_start = true := by
      have h2 : (f v).is_start = true := hflag
      rw [hf v] at h2
      exact h2
    exact hi (k, v) hv this

theorem startOK_set_accept (a : Automaton) (h : StartOK a) (n : String) :
    StartOK (a.set_accept n) := by
  obtain ⟨hk, hn, hi⟩ := h
  refine ⟨by rw [Automaton.set_accept, dictUpdate_keys]; exact hk,
    namesNonempty_dictUpdate hn _ _, ?_⟩
  exact startInv_dictUpdate_preserving a n _ (fun _ => rfl) hi

theorem startOK_add_transition (a : Automaton) (h : StartOK a) (f sym t : String) :
    StartOK (a.add_transition f sym t) := by
  obtain ⟨hk, hn, hi⟩ := h
  refine ⟨by rw [Automaton.add_transition, dictUpdate_keys]; exact hk,
    namesNonempty_dictUpdate hn _ _, ?_⟩
  exact startInv_dictUpdate_preserving a f _ (fun _ => rfl) hi

theorem isSome_set_start (a : Automaton) (n k : String) :
    (dictGet (a.set_start n).states k).isSome = (dictGet a.states k).isSome := by
  cases hs : a.start_state with
  | none => rw [set_start_states_none a n hs, dictGet_isSome_dictUpdate]
  | some old =>
    by_cases hc : old ≠ "" ∧ old ≠ n
    · rw [set_start_states_clear a n old hs hc, dictGet_isSome_dictUpdate,
        dictGet_isSome_dictUpdate]
    · rw [set_start_states_keep a n old hs hc, dictGet_isSome_dictUpdate]

theorem dictGet_set_start_self (a : Automaton) (n : String) :
    dictGet (a.set_start n).states n
      = (dictGet a.states n).map (fun st => { st with is_start := true }) := by
  cases hs : a.start_state with
  | none => rw [set_start_states_none a n hs, dictGet_dictUpdate_self]
  | some old =>
    by_cases hc : old ≠ "" ∧ old ≠ n
    · rw [set_start_states_clear a n old hs hc, dictGet_dictUpdate_self,
        dictGet_dictUpdate_ne _ _ hc.2]
    · rw [set_start_states_keep a n old hs hc, dictGet_dictUpdate_self]

theorem dictGet_set_start_clears (a : Automaton) {old n : String}
    (hs : a.start_state = some old) (h1 : old ≠ "") (h2 : old ≠ n) :
    dictGet (a.set_start n).states old
      = (dictGet a.states old).map (fun st => { st with is_start := false }) := by
  rw [set_start_states_clear a n old hs ⟨h1, h2⟩,
    dictGet_dictUpdate_ne _ _ (Ne.symm h2), dictGet_dictUpdate_self]

theorem set_start_exclusive_facts (a : Automaton) (hok : StartOK a) (A B : String)
    (hA : (dictGet a.states A).isSome) (hB : (dictGet a.states B).isSome) (hAB : A ≠ B) :
    (dictGet ((a.set_start A).set_start B).states B).map StateData.is_start = some true
    ∧ (dictGet ((a.set_start A).set_start B).states A).map StateData.is_start = some false
    ∧ ((a.set_start A).set_start B).start_state = some B
    ∧ (∀ p ∈ ((a.set_start A).set_start B).states, p.2.is_start = true → p.1 = B) := by
  have hAe : A ≠ "" := name_ne_empty_of_isSome hok.2.1 hA
  have hok2 : StartOK ((a.set_start A).set_start B) :=
    startOK_set_start _ (startOK_set_start a hok A) B
  have hs1 : (a.set_start A).start_state = some A := set_start_start_state a A
  refine ⟨?_, ?_, set_start_start_state _ B, ?_⟩
  · have hBi : (dictGet (a.set_start A).states B).isSome := by
      rw [isSome_set_start]
      exact hB
    obtain ⟨v, hv⟩ := Option.isSome_iff_exists.mp hBi
    rw [dictGet_set_start_self, hv]
    rfl
  · have hAi : (dictGet (a.set_start A).states A).isSome := by
      rw [isSome_set_start]
      exact hA
    obtain ⟨v, hv⟩ := Option.isSome_iff_exists.mp hAi
    rw [dictGet_set_start_clears _ hs1 hAe hAB, hv]
    rfl
  · intro p hp hflag
    have h2 := hok2.2.2 p hp hflag
    rw [set_start_start_state] at h2
    injection h2 with h3
    exact h3.symm

/-- C6 (amended): on automatons with unique, non-empty state names
satisfying the start invariant, `set_start A` then `set_start B` (both
stored, `A` distinct from `B`) leaves only `B` flagged — `B.is_start`
true, `A.is_start` false, `start_state = B`, no other state flagged —
and every engine operation preserves the invariant (for `add_state`,
with a fresh unflagged state under a non-empty name, as the program
always passes), which with unique keys means at most one stored state
is ever flagged.  As stated — without the non-empty-name assumption —
the claim is false: see the counterexample. -/
theorem set_start_exclusivity :
    (∀ a : Automaton, StartOK a → ∀ A B : String,
      (dictGet a.states A).isSome → (dictGet a.states B).isSome → A ≠ B →
        (dictGet ((a.set_start A).set_start B).states B).map StateData.is_start = some true
        ∧ (dictGet ((a.set_start A).set_start B).states A).map StateData.is_start = some false
        ∧ ((a.set_start A).set_start B).start_state = some B
        ∧ (∀ p ∈ ((a.set_start A).set_start B).states, p.2.is_start = true → p.1 = B))
    ∧ (∀ a : Automaton, StartOK a → ∀ n, StartOK (a.set_start n))
    ∧ (∀ a : Automaton, StartOK a → ∀ n st, n ≠ "" → st.is_start = false →
        StartOK (a.add_state n st))
    ∧ (∀ a : Automaton, StartOK a → ∀ n, StartOK (a.set_accept n))
    ∧ (∀ a : Automaton, StartOK a → ∀ f sym t, StartOK (a.add_transition f sym t))
    ∧ (∀ a : Automaton, StartOK a → ∀ p ∈ a.states, ∀ q ∈ a.states,
        p.2.is_start = true → q.2.is_start = true → p = q) :=
  ⟨fun a h A B hA hB hAB => set_start_exclusive_facts a h A B hA hB hAB,
   fun a h n => startOK_set_start a h n,
   fun a h n st h1 h2 => startOK_add_state a h n st h1 h2,
   fun a h n => startOK_set_accept a h n,
   fun a h f sym t => startOK_add_transition a h f sym t,
   fun a h p hp q hq hpf hqf => keys_nodup_eq h.1 hp hq (by
     have h1 := h.2.2 p hp hpf
     have h2 := h.2.2 q hq hqf
     rw [h1] at h2
     exact Option.some.inj h2)⟩

/-- C6 as stated is false when the first start state is named by the
empty string: `set_start` on a second state skips the clearing (the old
name is falsy), so the first state stays flagged alongside the new
one. -/
theorem set_start_exclusivity_cx :
    ("" : String) ≠ "q"
    ∧ (dictGet twoStatesOneUnnamed.states "").isSome
    ∧ (dictGet twoStatesOneUnnamed.states "q").isSome
    ∧ ¬ ((dictGet ((twoStatesOneUnnamed.set_start "").set_start "q").states "").map
          StateData.is_start = some false) := by
  decide

theorem set_start_exclusivity_witness :
    StartOK exampleDFA
    ∧ (dictGet exampleDFA.states "q0").isSome
    ∧ (dictGet exampleDFA.states "q1").isSome
    ∧ ("q0" : String) ≠ "q1"
    ∧ ((dictGet ((exampleDFA.set_start "q0").set_start "q1").states "q1").map
          StateData.is_start = some true
      ∧ (dictGet ((exampleDFA.set_start "q0").set_start "q1").states "q0").map
          StateData.is_start = some false
      ∧ ((exampleDFA.set_start "q0").set_start "q1").start_state = some "q1"
      ∧ (∀ p ∈ ((exampleDFA.set_start "q0").set_start "q1").states,
          p.2.is_start = true → p.1 = "q1")) :=
  ⟨by decide, by decide, by decide, by decide,
    set_start_exclusivity.1 exampleDFA (by decide) "q0" "q1" (by decide) (by decide) (by decide)⟩

theorem foldl_add_state (names : List String) :
    ∀ a : Automaton, names.Nodup → (∀ n ∈ names, dictGet a.states n = none) →
      names.foldl (fun a2 n => a2.add_state n StateData.fresh) a
        = { states := a.states ++ names.map (fun n => (n, StateData.fresh)),
            start_state := a.start_state, accept_states := a.accept_states,
            is_dfa := a.is_dfa } := by
  induction names with
  | nil =>
    intro a _ _
    cases a
    simp
  | cons n rest ih =>
    intro a hnd habs
    simp only [List.nodup_cons] at hnd
    obtain ⟨hn, hndr⟩ := hnd
    have h0 : dictGet a.states n = none := habs n (List.mem_cons_self _ _)
    have hst : (a.add_state n StateData.fresh).states = a.states ++ [(n, StateData.fresh)] :=
      dictSet_absent a.states n StateData.fresh h0
    have habs2 : ∀ m ∈ rest, dictGet (a.add_state n StateData.fresh).states m = none := by
      intro m hm
      rw [hst, dictGet_append_of_none _ _ _ (habs m (List.mem_cons_of_mem _ hm))]
      have : n ≠ m := fun he => hn (he ▸ hm)
      simp [dictGet, this]
    show rest.foldl (fun a2 m => a2.add_state m StateData.fresh) (a.add_state n StateData.fresh)
      = _
    rw [ih (a.add_state n StateData.fresh) hndr habs2, hst]
    simp [Automaton.add_state, List.append_assoc]

theorem set_start_accept_states (a : Automaton) (n : String) :
    (a.set_start n).accept_states = a.accept_states := by
  unfold Automaton.set_start
  cases a.start_state with
  | none => rfl
  | some old =>
    by_cases hc : old ≠ "" ∧ old ≠ n
    · simp [if_pos hc]
    · simp [if_neg hc]

theorem set_start_is_dfa (a : Automaton) (n : String) :
    (a.set_start n).is_dfa = a.is_dfa := by
  unfold Automaton.set_start
  cases a.start_state with
  | none => rfl
  | some old =>
    by_cases hc : old ≠ "" ∧ old ≠ n
    · simp [if_pos hc]
    · simp [if_neg hc]

theorem transitions_set_start (a : Automaton) (n k : String) :
    (dictGet (a.set_start n).states k).map StateData.transitions
      = (dictGet a.states k).map StateData.transitions := by
  cases hs : a.start_state with
  | none =>
    rw [set_start_states_none a n hs]
    exact dictGet_map_transitions_dictUpdate _ _ _ _ (fun _ => rfl)
  | some old =>
    by_cases hc : old ≠ "" ∧ old ≠ n
    · rw [set_start_states_clear a n old hs hc]
      rw [dictGet_map_transitions_dictUpdate _ n k (fun st => { st with is_start := true })
        (fun _ => rfl)]
      exact dictGet_map_transitions_dictUpdate _ old k (fun st => { st with is_start := false })
        (fun _ => rfl)
    · rw [set_start_states_keep a n old hs hc]
      exact dictGet_map_transitions_dictUpdate _ _ _ _ (fun _ => rfl)

theorem loadStart_effect (a0 : Automaton) (hs0 : a0.start_state = none)
    (start : Option String)
    (h : ∀ s ∈ start.toList, s ≠ "" ∧ (dictGet a0.states s).isSome) :
    ∃ a1, loadStart a0 start = some a1
      ∧ a1.start_state = start
      ∧ a1.accept_states = a0.accept_states
      ∧ a1.is_dfa = a0.is_dfa
      ∧ (∀ n, (dictGet a1.states n).isSome = (dictGet a0.states n).isSome)
      ∧ (∀ n, (dictGet a1.states n).map StateData.transitions
            = (dictGet a0.states n).map StateData.transitions) := by
  cases start with
  | none => exact ⟨a0, rfl, hs0, rfl, rfl, fun _ => rfl, fun _ => rfl⟩
  | some s =>
    obtain ⟨hne, hres⟩ := h s (by simp)
    obtain ⟨v, hv⟩ := Option.isSome_iff_exists.mp hres
    refine ⟨a0.set_start s, ?_, set_start_start_state a0 s, set_start_accept_states a0 s,
      set_start_is_dfa a0 s, fun n => isSome_set_start a0 s n, fun n => transitions_set_start a0 s n⟩
    show (if s = "" then some a0
      else match dictGet a0.states s with
        | none => none
        | some _ => some (a0.set_start s)) = some (a0.set_start s)
    rw [if_neg hne, hv]

theorem loadAccept_effect :
    ∀ (names : List String) (a : Automaton),
      (∀ n ∈ names, (dictGet a.states n).isSome) →
      ∃ a2, loadAccept a names = some a2
        ∧ a2.start_state = a.start_state
        ∧ a2.is_dfa = a.is_dfa
        ∧ a2.accept_states = names.foldl insertNew a.accept_states
        ∧ (∀ n, (dictGet a2.states n).isSome = (dictGet a.states n).isSome)
        ∧ (∀ n, (dictGet a2.states n).map StateData.transitions
              = (dictGet a.states n).map StateData.transitions) := by
  intro names
  induction names with
  | nil =>
    intro a _
    exact ⟨a, rfl, rfl, rfl, rfl, fun _ => rfl, fun _ => rfl⟩
  | cons m rest ih =>
    intro a h
    obtain ⟨v, hv⟩ := Option.isSome_iff_exists.mp (h m (List.mem_cons_self _ _))
    have hrest : ∀ n ∈ rest, (dictGet (a.set_accept m).states n).isSome := by
      intro n hn
      show (dictGet (dictUpdate a.states m _) n).isSome = true
      rw [dictGet_isSome_dictUpdate]
      exact h n (List.mem_cons_of_mem _ hn)
    obtain ⟨a2, he, h1, h2, h3, h4, h5⟩ := ih (a.set_accept m) hrest
    refine ⟨a2, ?_, ?_, ?_, ?_, ?_, ?_⟩
    · show (match dictGet a.states m with
        | none => none
        | some _ => loadAccept (a.set_accept m) rest) = some a2
      rw [hv]
      exact he
    · rw [h1]
      rfl
    · rw [h2]
      rfl
    · rw [h3]
      rfl
    · intro n
      rw [h4 n]
      show (dictGet (dictUpdate a.states m _) n).isSome = _
      rw [dictGet_isSome_dictUpdate]
    · intro n
      rw [h5 n]
      exact dictGet_map_transitions_dictUpdate a.states m n
        (fun st => { st with is_accept := true }) (fun _ => rfl)

theorem loadTargets_eq (fromName symbol : String) :
    ∀ (ts : List String) (x : Automaton), (∀ t ∈ ts, (dictGet x.states t).isSome) →
      loadTargets x fromName symbol ts
        = { x with states :=
              (dictUpdate x.states fromName
                (fun st => { st with transitions := replayTargets st.transitions symbol ts })) }
    := by
  intro ts
  induction ts with
  | nil =>
    intro x _
    show x = _
    have h2 : dictUpdate x.states fromName
        (fun st => { st with transitions := replayTargets st.transitions symbol [] })
        = x.states := dictUpdate_id x.states fromName
    rw [h2]
  | cons t rest ih =>
    intro x h
    obtain ⟨v, hv⟩ := Option.isSome_iff_exists.mp (h t (List.mem_cons_self _ _))
    have hstep : loadTargets x fromName symbol (t :: rest)
        = loadTargets (x.add_transition fromName symbol t) fromName symbol rest := by
      show (match dictGet x.states t with
        | none => loadTargets x fromName symbol rest
        | some _ => loadTargets (x.add_transition fromName symbol t) fromName symbol rest) = _
      rw [hv]
    rw [hstep]
    have hres2 : ∀ m ∈ rest, (dictGet (x.add_transition fromName symbol t).states m).isSome := by
      intro m hm
      show (dictGet (dictUpdate x.states fromName _) m).isSome = true
      rw [dictGet_isSome_dictUpdate]
      exact h m (List.mem_cons_of_mem _ hm)
    rw [ih (x.add_transition fromName symbol t) hres2]
    dsimp only [Automaton.add_transition]
    rw [dictUpdate_dictUpdate]
    rfl

theorem loadSymbols_eq (fromName : String) :
    ∀ (T : List (String × List String)) (x : Automaton),
      (∀ q ∈ T, ∀ t ∈ q.2, (dictGet x.states t).isSome) →
      loadSymbols x fromName T
        = { x with states :=
              (dictUpdate x.states fromName
                (fun st => { st with transitions := replayTable st.transitions T })) }
    := by
  intro T
  induction T with
  | nil =>
    intro x _
    show x = _
    have h2 : dictUpdate x.states fromName
        (fun st => { st with transitions := replayTable st.transitions [] }) = x.states :=
      dictUpdate_id x.states fromName
    rw [h2]
  | cons se rest ih =>
    intro x h
    show loadSymbols (loadTargets x fromName se.1 se.2) fromName rest = _
    rw [loadTargets_eq fromName se.1 se.2 x (fun t ht => h se (List.mem_cons_self _ _) t ht)]
    have hres2 : ∀ q ∈ rest, ∀ t ∈ q.2,
        (dictGet (dictUpdate x.states fromName
          (fun st => { st with transitions := replayTargets st.transitions se.1 se.2 })) t).isSome
        = true := by
      intro q hq t ht
      rw [dictGet_isSome_dictUpdate]
      exact h q (List.mem_cons_of_mem _ hq) t ht
    rw [ih _ hres2]
    dsimp only
    rw [dictUpdate_dictUpdate]
    rfl

theorem loadTransitions_effect :
    ∀ (E : List (String × List (String × List String))) (x : Automaton),
      (E.map Prod.fst).Nodup →
      (∀ e ∈ E, (dictGet x.states e.1).isSome) →
      (∀ e ∈ E, ∀ q ∈ e.2, ∀ t ∈ q.2, (dictGet x.states t).isSome) →
      (loadTransitions x E).start_state = x.start_state
      ∧ (loadTransitions x E).accept_states = x.accept_states
      ∧ (loadTransitions x E).is_dfa = x.is_dfa
      ∧ (∀ n, (dictGet (loadTransitions x E).states n).isSome = (dictGet x.states n).isSome)
      ∧ (∀ e ∈ E, dictGet (loadTransitions x E).states e.1
            = (dictGet x.states e.1).map
                (fun st => { st with transitions := replayTable st.transitions e.2 }))
      ∧ (∀ n, n ∉ E.map Prod.fst → dictGet (loadTransitions x E).states n = dictGet x.states n)
    := by
  intro E
  induction E with
  | nil =>
    intro x _ _ _
    exact ⟨rfl, rfl, rfl, fun _ => rfl, fun e he => absurd he (List.not_mem_nil e),
      fun _ _ => rfl⟩
  | cons e rest ih =>
    intro x hnd hres htars
    simp only [List.map_cons, List.nodup_cons] at hnd
    obtain ⟨he1, hndr⟩ := hnd
    obtain ⟨v, hv⟩ := Option.isSome_iff_exists.mp (hres e (List.mem_cons_self _ _))
    have hstep : loadTransitions x (e :: rest) = loadTransitions (loadSymbols x e.1 e.2) rest := by
      show (match dictGet x.states e.1 with
        | none => loadTransitions x rest
        | some _ => loadTransitions (loadSymbols x e.1 e.2) rest) = _
      rw [hv]
    have hX2 := loadSymbols_eq e.1 e.2 x (htars e (List.mem_cons_self _ _))
    have hres2 : ∀ e2 ∈ rest,
        (dictGet (dictUpdate x.states e.1
          (fun st => { st with transitions := replayTable st.transitions e.2 })) e2.1).isSome
        = true := by
      intro e2 he2
      rw [dictGet_isSome_dictUpdate]
      exact hres e2 (List.mem_cons_of_mem _ he2)
    have htars2 : ∀ e2 ∈ rest, ∀ q ∈ e2.2, ∀ t ∈ q.2,
        (dictGet (dictUpdate x.states e.1
          (fun st => { st with transitions := replayTable st.transitions e.2 })) t).isSome
        = true := by
      intro e2 he2 q hq t ht
      rw [dictGet_isSome_dictUpdate]
      exact htars e2 (List.mem_cons_of_mem _ he2) q hq t ht
    obtain ⟨g1, g2, g3, g4, g5, g6⟩ :=
      ih { x with states := dictUpdate x.states e.1 (fun st => { st with transitions := replayTable st.transitions e.2 }) }
        hndr hres2 htars2
    rw [hstep, hX2]
    refine ⟨?_, ?_, ?_, ?_, ?_, ?_⟩
    · rw [g1]
    · rw [g2]
    · rw [g3]
    · intro n
      rw [g4 n]
      dsimp only
      rw [dictGet_isSome_dictUpdate]
    · intro e2 he2
      rcases List.mem_cons.mp he2 with he2h | he2r
      · subst he2h
        rw [g6 e2.1 (by simpa using he1)]
        dsimp only
        rw [dictGet_dictUpdate_self]
      · rw [g5 e2 he2r]
        dsimp only
        have hnee : e.1 ≠ e2.1 := fun hh => he1 (hh ▸ List.mem_map_of_mem Prod.fst he2r)
        rw [dictGet_dictUpdate_ne _ _ hnee]
    · intro n hn
      simp only [List.map_cons, List.mem_cons] at hn
      push_neg at hn
      rw [g6 n hn.2]
      dsimp only
      rw [dictGet_dictUpdate_ne _ _ (Ne.symm hn.1)]

theorem dfaLoop_eq_of_relation (sA sB : List (String × StateData)) (accA accB : List String)
    (hacc : ∀ x : String, x ∈ accB ↔ x ∈ accA)
    (hsome : ∀ n, (dictGet sB n).isSome = (dictGet sA n).isSome)
    (hne2 : TablesNonempty sA)
    (hrel : ∀ n stA stB, dictGet sA n = some stA → dictGet sB n = some stB →
      ∀ sym, dictGet stB.transitions sym = (dictGet stA.transitions sym).map dedupList) :
    ∀ cur w, dfaLoop sB accB cur w = dfaLoop sA accA cur w := by
  intro cur w
  induction w generalizing cur with
  | nil =>
    show some (decide (cur ∈ accB)) = some (decide (cur ∈ accA))
    rw [decide_eq_decide.mpr (hacc cur)]
  | cons c rest ih =>
    cases hgA : dictGet sA cur with
    | none =>
      cases hgB : dictGet sB cur with
      | some stB =>
        exfalso
        have h2 := hsome cur
        rw [hgA, hgB] at h2
        simp at h2
      | none => simp [dfaLoop, hgA, hgB]
    | some stA =>
      have hB : (dictGet sB cur).isSome := by
        rw [hsome cur, hgA]
        rfl
      obtain ⟨stB, hgB⟩ := Option.isSome_iff_exists.mp hB
      cases hgt : dictGet stA.transitions (String.singleton c) with
      | none =>
        have hgtB : dictGet stB.transitions (String.singleton c) = none := by
          rw [hrel cur stA stB hgA hgB, hgt]
          rfl
        simp [dfaLoop, hgA, hgB, hgt, hgtB]
      | some ts =>
        have hts : ts ≠ [] := hne2 (cur, stA) (dictGet_mem hgA) _ (dictGet_mem hgt)
        cases ts with
        | nil => exact absurd rfl hts
        | cons t ts2 =>
          have hgtB : dictGet stB.transitions (String.singleton c)
              = some (dedupList (t :: ts2)) := by
            rw [hrel cur stA stB hgA hgB, hgt]
            rfl
          obtain ⟨r2, hr2⟩ := dedupList_head t ts2
          rw [hr2] at hgtB
          simp [dfaLoop, hgA, hgB, hgt, hgtB, ih]

theorem isSome_map {α : Type u} {β : Type v} (o : Option α) (g : α → β) :
    (o.map g).isSome = o.isSome := by
  cases o <;> rfl

theorem load_automaton_eq (d : SavedData) (a1x a2x : Automaton)
    (h1 : loadStart (d.states.foldl (fun y n => y.add_state n StateData.fresh)
        (Automaton.empty true)) d.start = some a1x)
    (h2 : loadAccept a1x d.accept = some a2x) :
    load_automaton d = some (loadTransitions a2x d.transitions) := by
  show (match loadStart (d.states.foldl (fun y n => y.add_state n StateData.fresh)
      (Automaton.empty true)) d.start with
    | none => none
    | some a1 =>
      match loadAccept a1 d.accept with
      | none => none
      | some a2 => some (loadTransitions a2 d.transitions)) = some (loadTransitions a2x d.transitions)
  rw [h1]
  show (match loadAccept a1x d.accept with
    | none => none
    | some a2 => some (loadTransitions a2 d.transitions)) = some (loadTransitions a2x d.transitions)
  rw [h2]

theorem fresh_build (a : Automaton) (hkeys : (a.states.map Prod.fst).Nodup) :
    (a.states.map Prod.fst).foldl (fun y n => y.add_state n StateData.fresh)
      (Automaton.empty true) = freshAutomaton a.states := by
  rw [foldl_add_state (a.states.map Prod.fst) (Automaton.empty true) hkeys (fun _ _ => rfl)]
  dsimp only [Automaton.empty, freshAutomaton]
  rw [List.nil_append, List.map_map]
  rfl

theorem dictGet_freshAutomaton (states : List (String × StateData)) (k : String) :
    dictGet (freshAutomaton states).states k
      = (dictGet states k).map (fun _ => StateData.fresh) := by
  dsimp only [freshAutomaton]
  exact dictGet_map_value (fun _ => StateData.fresh) states k

/-- C4 (amended): for every DFA-mode automaton that is well formed —
unique state names, transition tables with unique symbol keys,
non-empty target lists, destination names and accept names present in
the state mapping, and a truthy start name present in the mapping —
saving and reloading reconstructs an automaton whose `simulate` result
agrees with the original on every input string; the reload builds a
fresh automaton from the record alone (wholesale replacement).  As
stated — for every automaton — the claim is false, because the record
has no mode field and `load_automaton` always rebuilds a DFA: see the
counterexample, an NFA whose reload changes `simulate`. -/
theorem save_load_roundtrip_dfa (a : Automaton)
    (hdfa : a.is_dfa = true)
    (hkeys : (a.states.map Prod.fst).Nodup)
    (hTkeys : TablesNodupKeys a.states)
    (ht : TablesNonempty a.states)
    (hdest : DestsResident a.states)
    (hstart : ∀ s ∈ a.start_state.toList, s ≠ "" ∧ (dictGet a.states s).isSome)
    (hacc2 : ∀ n ∈ a.accept_states, (dictGet a.states n).isSome) :
    ∃ b, load_automaton (save_automaton a) = some b ∧ ∀ w, b.simulate w = a.simulate w := by
  obtain ⟨a1, hl1, ha1s, ha1a, ha1d, ha1some, ha1tr⟩ :=
    loadStart_effect (freshAutomaton a.states) rfl a.start_state
      (fun s hs => ⟨(hstart s hs).1, by
        rw [dictGet_freshAutomaton, isSome_map]
        exact (hstart s hs).2⟩)
  have h1some : ∀ n, (dictGet a1.states n).isSome = (dictGet a.states n).isSome := by
    intro n
    rw [ha1some n, dictGet_freshAutomaton, isSome_map]
  have h1tr : ∀ n, (dictGet a1.states n).map StateData.transitions
      = (dictGet a.states n).map (fun _ => ([] : List (String × List String))) := by
    intro n
    rw [ha1tr n, dictGet_freshAutomaton, Option.map_map]
    rfl
  obtain ⟨a2, hl2, h2s, h2d, h2a, h2some, h2tr⟩ := loadAccept_effect a.accept_states a1
    (fun n hn => by rw [h1some n]; exact hacc2 n hn)
  have h2some2 : ∀ n, (dictGet a2.states n).isSome = (dictGet a.states n).isSome :=
    fun n => by rw [h2some n, h1some n]
  have h2tr2 : ∀ n, (dictGet a2.states n).map StateData.transitions
      = (dictGet a.states n).map (fun _ => ([] : List (String × List String))) :=
    fun n => by rw [h2tr n, h1tr n]
  have h2start : a2.start_state = a.start_state := by rw [h2s, ha1s]
  have h2dfa : a2.is_dfa = true := by
    rw [h2d, ha1d]
    rfl
  have h2acc : a2.accept_states = dedupList a.accept_states := by
    rw [h2a, ha1a]
    rfl
  have hEkeys : ((a.states.map (fun p => (p.1, p.2.transitions))).map Prod.fst).Nodup := by
    rw [List.map_map]
    exact hkeys
  have hEres : ∀ e ∈ a.states.map (fun p => (p.1, p.2.transitions)),
      (dictGet a2.states e.1).isSome := by
    intro e he
    obtain ⟨p, hp, rfl⟩ := List.mem_map.mp he
    rw [h2some2]
    exact (dictGet_isSome_iff a.states p.1).mpr (List.mem_map_of_mem Prod.fst hp)
  have hEtars : ∀ e ∈ a.states.map (fun p => (p.1, p.2.transitions)),
      ∀ q ∈ e.2, ∀ t ∈ q.2, (dictGet a2.states t).isSome := by
    intro e he q hq t htm
    obtain ⟨p, hp, rfl⟩ := List.mem_map.mp he
    rw [h2some2]
    exact hdest p hp q hq t htm
  obtain ⟨g1, g2, g3, g4, g5, g6⟩ := loadTransitions_effect
    (a.states.map (fun p => (p.1, p.2.transitions))) a2 hEkeys hEres hEtars
  refine ⟨loadTransitions a2 (a.states.map (fun p => (p.1, p.2.transitions))), ?_, ?_⟩
  · apply load_automaton_eq (save_automaton a) a1 a2
    · show loadStart ((a.states.map Prod.fst).foldl (fun y n => y.add_state n StateData.fresh)
        (Automaton.empty true)) a.start_state = some a1
      rw [fresh_build a hkeys]
      exact hl1
    · exact hl2
  · have hbs : (loadTransitions a2 (a.states.map (fun p => (p.1, p.2.transitions)))).start_state
        = a.start_state := by rw [g1, h2start]
    have hba : (loadTransitions a2 (a.states.map (fun p => (p.1, p.2.transitions)))).accept_states
        = dedupList a.accept_states := by rw [g2, h2acc]
    have hbd : (loadTransitions a2 (a.states.map (fun p => (p.1, p.2.transitions)))).is_dfa
        = true := by rw [g3, h2dfa]
    have hbsome : ∀ n,
        (dictGet (loadTransitions a2 (a.states.map (fun p => (p.1, p.2.transitions)))).states
          n).isSome = (dictGet a.states n).isSome :=
      fun n => by rw [g4 n, h2some2 n]
    have hbrel : ∀ n stA stB, dictGet a.states n = some stA →
        dictGet (loadTransitions a2 (a.states.map (fun p => (p.1, p.2.transitions)))).states n
          = some stB →
        ∀ sym, dictGet stB.transitions sym = (dictGet stA.transitions sym).map dedupList := by
      intro n stA stB hA hB sym
      have heE : (n, stA.transitions) ∈ a.states.map (fun p => (p.1, p.2.transitions)) :=
        List.mem_map.mpr ⟨(n, stA), dictGet_mem hA, rfl⟩
      have h5 := g5 (n, stA.transitions) heE
      have h2i : (dictGet a2.states n).isSome := by
        rw [h2some2 n, hA]
        rfl
      obtain ⟨st2, hst2⟩ := Option.isSome_iff_exists.mp h2i
      have hst2tr : st2.transitions = [] := by
        have h6 := h2tr2 n
        rw [hst2, hA] at h6
        simp only [Option.map_some'] at h6
        exact Option.some.inj h6
      rw [h5, hst2, Option.map_some'] at hB
      have hstB := (Option.some.inj hB).symm
      rw [hstB]
      dsimp only
      rw [hst2tr]
      have hrg := replayTable_get stA.transitions [] (hTkeys (n, stA) (dictGet_mem hA))
        (fun q hq => ht (n, stA) (dictGet_mem hA) q hq) (fun q hq => rfl) sym
      cases hgt : dictGet stA.transitions sym with
      | none =>
        rw [hrg.2 hgt]
        rfl
      | some ts =>
        rw [hrg.1 ts hgt]
        rfl
    intro w
    have hloop := dfaLoop_eq_of_relation a.states
      (loadTransitions a2 (a.states.map (fun p => (p.1, p.2.transitions)))).states
      a.accept_states
      (loadTransitions a2 (a.states.map (fun p => (p.1, p.2.transitions)))).accept_states
      (fun x => by rw [hba]; exact mem_dedupList) hbsome ht hbrel
    unfold Automaton.simulate
    rw [hbs]
    cases hsv : a.start_state with
    | none => rfl
    | some s =>
      obtain ⟨hne, hres⟩ := hstart s (by simp [hsv])
      dsimp only
      rw [if_neg hne, if_neg hne, hbd, hdfa]
      simp only [if_true]
      exact hloop s w

/-- C4 as stated is false: the saved record has no mode field and
`load_automaton` always builds a DFA, so this NFA — which accepts "a"
through the second of its two `a`-targets — simulates differently
after a save/load round trip. -/
theorem save_load_roundtrip_cx :
    modeLossNFA.is_dfa = false
    ∧ modeLossNFA.simulate ['a'] = some true
    ∧ (load_automaton (save_automaton modeLossNFA)).bind (fun b => b.simulate ['a'])
        = some false := by
  decide

theorem save_load_roundtrip_dfa_witness :
    exampleDFA.is_dfa = true
    ∧ (exampleDFA.states.map Prod.fst).Nodup
    ∧ TablesNodupKeys exampleDFA.states
    ∧ TablesNonempty exampleDFA.states
    ∧ DestsResident exampleDFA.states
    ∧ (∀ s ∈ exampleDFA.start_state.toList, s ≠ "" ∧ (dictGet exampleDFA.states s).isSome)
    ∧ (∀ n ∈ exampleDFA.accept_states, (dictGet exampleDFA.states n).isSome)
    ∧ (∃ b, load_automaton (save_automaton exampleDFA) = some b
        ∧ ∀ w, b.simulate w = exampleDFA.simulate w) :=
  ⟨by decide, by decide, by decide, by decide, by decide, by decide, by decide,
    save_load_roundtrip_dfa exampleDFA (by decide) (by decide) (by decide) (by decide)
      (by decide) (by decide) (by decide)⟩
